import Mathlib

/-!
Path-addressed JSON access: bootstrap/runtime/nerd_json.c

A shallow embedding of the path navigator `navigate_path`, the typed accessors built on it
and the top-level setters, together with the properties of them that the specification states.
Two helpers of the neighbouring files follow: `extract_text` of nerd_llm.c and
`base64_encode` of nerd_http.c, the latter compared with a definition after RFC 4648.

Conventions of the embedding.

* A C string is the list of its characters before the terminator (`CString`); a possibly
  null `char*` is an `Option CString`, a possibly null `cJSON*` an `Option cJSON`.
* Nodes are values: a setter returns the updated tree instead of mutating it in place.
* C `int` results are integers; the result of `atoi` is that of `strtol`, saturated to a
  64-bit `long`, reduced to the 32 bits of an `int`.
* Allocation (`strdup`) is assumed to succeed.
-/

namespace NerdJson

/-- A C string: its characters up to, and without, the terminating NUL. -/
abbrev CString := List Char

/-- Modelled from the spec: the node type `cJSON` declared in lib/cjson/cJSON.h, which is not
among the sources. Section 3 of the specification gives the variants: Null, Bool, Number
(a double, carried here as a rational since the runtime only stores and returns it), String,
Array (ordered sequence) and Object (ordered key/value members). -/
inductive cJSON where
  | null : cJSON
  | bool (b : Bool) : cJSON
  | number (valuedouble : Rat) : cJSON
  | string (valuestring : CString) : cJSON
  | array (items : List cJSON) : cJSON
  | object (members : List (CString × cJSON)) : cJSON

/-- Modelled from the spec: `cJSON_GetObjectItemCaseSensitive` of lib/cjson. Section 4.3:
a key step requires an Object and yields the member with exactly that key, else nothing. -/
def cJSON_GetObjectItemCaseSensitive (object : cJSON) (name : CString) : Option cJSON :=
  match object with
  | .object members => members.lookup name
  | _ => none

/-- Modelled from the spec: `cJSON_GetArraySize` of lib/cjson, the length of an Array
(section 4.3: zero for anything that is not an Array). -/
def cJSON_GetArraySize (array : cJSON) : Int :=
  match array with
  | .array items => (items.length : Int)
  | _ => 0

/-- Modelled from the spec: `cJSON_GetArrayItem` of lib/cjson. Sections 4.1 and 4.3: an
indexed read requires an Array and yields nothing outside `[0, len)`. -/
def cJSON_GetArrayItem (array : cJSON) (index : Int) : Option cJSON :=
  match array with
  | .array items => if index < 0 then none else items[index.toNat]?
  | _ => none

/-- Modelled from the spec: `cJSON_DeleteItemFromObject` of lib/cjson. Section 4.1:
remove(key) deletes an entry of an Object if present, else it is a no-op; section 4.4:
nothing happens on a target that is not an Object. -/
def cJSON_DeleteItemFromObject (object : cJSON) (name : CString) : cJSON :=
  match object with
  | .object members => .object (members.eraseP (fun m => m.1 = name))
  | other => other

/-- Modelled from the spec: `cJSON_AddItemToObject` of lib/cjson. Section 4.1: the new
entry is appended after the existing ones; section 4.4: no-op on a non-Object target. -/
def cJSON_AddItemToObject (object : cJSON) (name : CString) (item : cJSON) : cJSON :=
  match object with
  | .object members => .object (members ++ [(name, item)])
  | other => other

/-- The C library predicate `isspace` in the C locale. -/
def isspace (c : Char) : Bool :=
  c = ' ' || c = '\t' || c = '\n' || c = '\x0b' || c = '\x0c' || c = '\r'

/-- The C library predicate `isdigit`. -/
def isdigit (c : Char) : Bool :=
  decide ('0' ≤ c) && decide (c ≤ '9')

/-- The digit loop of `atoi`: accumulates the leading decimal digits. -/
def atoi_digits : Int → CString → Int
  | acc, [] => acc
  | acc, c :: cs =>
    if isdigit c then atoi_digits (acc * 10 + ((c.toNat : Int) - 48)) cs else acc

/-- Reduction of an integer to the range of a 32-bit C `int`. -/
def wrap_int (v : Int) : Int :=
  (v + 2147483648) % 4294967296 - 2147483648

/-- The saturation of `strtol`: a value outside the range of a 64-bit `long` is replaced
by `LONG_MIN` or `LONG_MAX`. -/
def clamp_long (v : Int) : Int :=
  if v < -9223372036854775808 then -9223372036854775808
  else if 9223372036854775807 < v then 9223372036854775807
  else v

/-- The C library function `atoi`: leading white space is skipped, an optional sign is read,
then the leading decimal digits; text without digits gives 0. The result is
`(int)strtol(s, 0, 10)` as on the 64-bit targets: the number is saturated to the range of
a `long` and then reduced to the 32 bits of an `int`. -/
def atoi (s : CString) : Int :=
  match s.dropWhile isspace with
  | [] => 0
  | c :: cs =>
    if c = '-' then wrap_int (clamp_long (-(atoi_digits 0 cs)))
    else if c = '+' then wrap_int (clamp_long (atoi_digits 0 cs))
    else wrap_int (clamp_long (atoi_digits 0 (c :: cs)))

/-- The C library function `strchr(s, c)`: the first occurrence of `c` in `s`, given as the
characters before it and the characters after it; `none` when `c` does not occur. -/
def strchr (s : CString) (c : Char) : Option (CString × CString) :=
  match s with
  | [] => none
  | x :: xs =>
    if x = c then some ([], xs)
    else (strchr xs c).map (fun p => (x :: p.1, p.2))

/-- The optional dot after a closing bracket: `if (*ptr == '.') ptr++`. -/
def skip_dot : CString → CString
  | [] => []
  | c :: cs => if c = '.' then cs else c :: cs

/-- The lookup of a pending key token: performed only when `ptr > token_start`
(respectively `*token_start` after the loop), that is when the token is not empty. -/
def lookup_token (current : cJSON) (token : CString) : Option cJSON :=
  if token = [] then some current else cJSON_GetObjectItemCaseSensitive current token

/-- The scanning loop of `navigate_path`, with `current` not null. `token` holds the
characters from `token_start` up to `ptr`, the last argument the characters from `ptr` on.
The first argument bounds the number of iterations; `navigate_path` passes the length of the
path, which is never exhausted since every iteration consumes a character. A null `current`
ends the loop and is returned as it is, so the loop stops with `none` there. -/
def navigate_loop : Nat → cJSON → CString → CString → Option cJSON
  | _, current, token, [] => lookup_token current token
  | 0, _, _, _ :: _ => none
  | n + 1, current, token, c :: rest =>
    if c = '[' then
      match lookup_token current token with
      | none => none
      | some cur =>
        match strchr rest ']' with
        | none => none
        | some (digits, after) =>
          let index := atoi digits
          let index := if index < 0 then cJSON_GetArraySize cur + index else index
          match cJSON_GetArrayItem cur index with
          | none => none
          | some item => navigate_loop n item [] (skip_dot after)
    else if c = '.' then
      match lookup_token current token with
      | none => none
      | some cur => navigate_loop n cur [] rest
    else navigate_loop n current (token ++ [c]) rest

/-- The function `navigate_path`: the node a path designates, `none` for NULL. -/
def navigate_path (root : Option cJSON) (path : Option CString) : Option cJSON :=
  match root, path with
  | some r, some (c :: cs) => navigate_loop (c :: cs).length r [] (c :: cs)
  | _, _ => root

/-- The accessor `nerd_json_get_string`: the text at the path, empty unless a String. -/
def nerd_json_get_string (j : Option cJSON) (path : Option CString) : CString :=
  match navigate_path j path with
  | some (.string s) => s
  | _ => []

/-- The accessor `nerd_json_get_number`: the number at the path, 0 unless a Number. -/
def nerd_json_get_number (j : Option cJSON) (path : Option CString) : Rat :=
  match navigate_path j path with
  | some (.number d) => d
  | _ => 0

/-- The accessor `nerd_json_get_bool`: 1 for a true node, 0 otherwise. -/
def nerd_json_get_bool (j : Option cJSON) (path : Option CString) : Int :=
  match navigate_path j path with
  | some (.bool true) => 1
  | _ => 0

/-- The accessor `nerd_json_get_object`: the node at the path. -/
def nerd_json_get_object (j : Option cJSON) (path : Option CString) : Option cJSON :=
  navigate_path j path

/-- The accessor `nerd_json_count`: the array length at the path, 0 unless an Array. -/
def nerd_json_count (j : Option cJSON) (path : Option CString) : Int :=
  match navigate_path j path with
  | some (.array items) => cJSON_GetArraySize (.array items)
  | _ => 0

/-- The accessor `nerd_json_has`: 1 when the path designates a node, else 0. -/
def nerd_json_has (j : Option cJSON) (path : Option CString) : Int :=
  match navigate_path j path with
  | some _ => 1
  | none => 0

/-- The setter `nerd_json_set_string`; returns the tree after the call. -/
def nerd_json_set_string (j : Option cJSON) (key : Option CString) (val : Option CString) :
    Option cJSON :=
  match j, key with
  | some o, some k =>
    some (cJSON_AddItemToObject (cJSON_DeleteItemFromObject o k) k (.string (val.getD [])))
  | _, _ => j

/-- The setter `nerd_json_set_number`; returns the tree after the call. -/
def nerd_json_set_number (j : Option cJSON) (key : Option CString) (val : Rat) :
    Option cJSON :=
  match j, key with
  | some o, some k =>
    some (cJSON_AddItemToObject (cJSON_DeleteItemFromObject o k) k (.number val))
  | _, _ => j

/-- The setter `nerd_json_set_bool`; returns the tree after the call. A C truth value is
any non-zero `int`. -/
def nerd_json_set_bool (j : Option cJSON) (key : Option CString) (val : Int) :
    Option cJSON :=
  match j, key with
  | some o, some k =>
    some (cJSON_AddItemToObject (cJSON_DeleteItemFromObject o k) k (.bool (decide (val ≠ 0))))
  | _, _ => j

/-- The setter `nerd_json_set_object`; returns the tree after the call. -/
def nerd_json_set_object (j : Option cJSON) (key : Option CString) (val : Option cJSON) :
    Option cJSON :=
  match j, key, val with
  | some o, some k, some v =>
    some (cJSON_AddItemToObject (cJSON_DeleteItemFromObject o k) k v)
  | _, _, _ => j

/-- The decimal text of an integer, as it is written inside the brackets of a path: a
minus sign for a negative number, then the digits without leading zeros. -/
def decimal (i : Int) : CString :=
  if i < 0 then '-' :: Nat.toDigits 10 i.natAbs else Nat.toDigits 10 i.toNat

/-- One iteration of the body of the scanning loop of `navigate_path`, entered with
`current` not null and `*ptr == c`, the characters after `ptr` being `rest`. The result
is the state for the next test of the loop condition: the new `current`, the pending token
and the characters from the new `ptr` on; `none` when `current` has become null, which ends
the loop with the result NULL. -/
def navigate_step (current : cJSON) (token : CString) (c : Char) (rest : CString) :
    Option (cJSON × CString × CString) :=
  if c = '[' then
    match lookup_token current token with
    | none => none
    | some cur =>
      match strchr rest ']' with
      | none => none
      | some (digits, after) =>
        let index := atoi digits
        let index := if index < 0 then cJSON_GetArraySize cur + index else index
        match cJSON_GetArrayItem cur index with
        | none => none
        | some item => some (item, [], skip_dot after)
  else if c = '.' then
    match lookup_token current token with
    | none => none
    | some cur => some (cur, [], rest)
  else some (current, token ++ [c], rest)

/-- The runs of the scanning loop, without any bound on the number of iterations:
`navigate_run current token ptr result` says that the loop entered in that state ends, and
that `navigate_path` then returns `result`. -/
inductive navigate_run : cJSON → CString → CString → Option cJSON → Prop where
  | finish (current : cJSON) (token : CString) :
      navigate_run current token [] (lookup_token current token)
  | miss (current : cJSON) (token : CString) (c : Char) (rest : CString) :
      navigate_step current token c rest = none →
      navigate_run current token (c :: rest) none
  | step (current : cJSON) (token : CString) (c : Char) (rest : CString)
      (cur : cJSON) (tok ptr : CString) (result : Option cJSON) :
      navigate_step current token c rest = some (cur, tok, ptr) →
      navigate_run cur tok ptr result →
      navigate_run current token (c :: rest) result

/-- The function `nerd_json_new`: `cJSON_CreateObject()`, the empty Object. -/
def nerd_json_new : Option cJSON :=
  some (.object [])

/-- The function `nerd_json_parse`: NULL for a null text, else the result of `cJSON_Parse`.
The parser of lib/cjson is not among the sources; it is a parameter here. -/
def nerd_json_parse (cJSON_Parse : CString → Option cJSON) (str : Option CString) :
    Option cJSON :=
  match str with
  | none => none
  | some text => cJSON_Parse text

/-- Modelled from the spec: the escape sequence of one character of a string in JSON text
(section 6: standard JSON), as the printer of lib/cjson writes it: the double quote, the
backslash and the control characters are escaped, every other character stands for
itself. -/
def escape_char (c : Char) : CString :=
  if c = '"' then ['\\', '"']
  else if c = '\\' then ['\\', '\\']
  else if c = '\x08' then ['\\', 'b']
  else if c = '\x0c' then ['\\', 'f']
  else if c = '\n' then ['\\', 'n']
  else if c = '\r' then ['\\', 'r']
  else if c = '\t' then ['\\', 't']
  else if c.toNat < 32 then
    ['\\', 'u', '0', '0', Nat.digitChar (c.toNat / 16), Nat.digitChar (c.toNat % 16)]
  else [c]

/-- Modelled from the spec: the JSON text of a string or key, quoted and escaped. -/
def print_string_ptr (s : CString) : CString :=
  '"' :: s.flatMap escape_char ++ ['"']

/-- Modelled from the spec: the JSON text of a number. Scenario 3 of section 8 fixes the
text of a number that is an `int`: its decimal digits, without fractional part. The text
of any other number is produced by floating-point formatting in lib/cjson and is left to
the parameter `print_double`. -/
def print_number (print_double : Rat → CString) (d : Rat) : CString :=
  if d.den = 1 ∧ -2147483648 ≤ d.num ∧ d.num < 2147483648 then decimal d.num
  else print_double d

mutual
/-- Modelled from the spec: `cJSON_PrintUnformatted` of lib/cjson. Section 4.5: the compact
canonical JSON text of a value, without any whitespace. -/
def cJSON_PrintUnformatted (print_double : Rat → CString) : cJSON → CString
  | .null => "null".toList
  | .bool true => "true".toList
  | .bool false => "false".toList
  | .number d => print_number print_double d
  | .string s => print_string_ptr s
  | .array items => '[' :: print_array print_double items ++ [']']
  | .object members => '{' :: print_object print_double members ++ ['}']
/-- The elements of an Array, separated by commas. -/
def print_array (print_double : Rat → CString) : List cJSON → CString
  | [] => []
  | x :: rest => cJSON_PrintUnformatted print_double x ++ print_array_more print_double rest
/-- The elements of an Array after the first, each behind a comma. -/
def print_array_more (print_double : Rat → CString) : List cJSON → CString
  | [] => []
  | x :: rest =>
    ',' :: cJSON_PrintUnformatted print_double x ++ print_array_more print_double rest
/-- The members of an Object, each as key, colon, value, separated by commas. -/
def print_object (print_double : Rat → CString) : List (CString × cJSON) → CString
  | [] => []
  | (k, v) :: rest =>
    print_string_ptr k ++ ':' :: cJSON_PrintUnformatted print_double v
      ++ print_object_more print_double rest
/-- The members of an Object after the first, each behind a comma. -/
def print_object_more (print_double : Rat → CString) : List (CString × cJSON) → CString
  | [] => []
  | (k, v) :: rest =>
    ',' :: print_string_ptr k ++ ':' :: cJSON_PrintUnformatted print_double v
      ++ print_object_more print_double rest
end

/-- The function `nerd_json_stringify`: the text of the two characters of the empty object
for a null tree, else the unformatted text of the tree. -/
def nerd_json_stringify (print_double : Rat → CString) (j : Option cJSON) : CString :=
  match j with
  | none => ['{', '}']
  | some node => cJSON_PrintUnformatted print_double node

/-- An object with one member of each scalar kind, each holding the value that the typed
accessors also use as their default, next to a number 1 and a string reading true. -/
def defaults_tree : cJSON :=
  .object [("n".toList, .null), ("f".toList, .bool false), ("z".toList, .number 0),
    ("e".toList, .string []), ("one".toList, .number 1), ("s".toList, .string "true".toList),
    ("t".toList, .bool true), ("l".toList, .array [.null, .null])]

/-- The tree of scenario 1: an object with a member user holding name and tags. -/
def scenario1 : cJSON :=
  .object [("user".toList, .object [("name".toList, .string "Ana".toList),
    ("tags".toList, .array [.string "x".toList, .string "y".toList])])]

/-- Whether a text begins with the characters of another: the comparison `strstr` makes at
one position. -/
def starts_with : CString → CString → Bool
  | _, [] => true
  | [], _ :: _ => false
  | c :: cs, n :: ns => c = n && starts_with cs ns

/-- The C library function `strstr(haystack, needle)`: the text from the first occurrence
of `needle` on, `none` when `needle` does not occur. -/
def strstr : CString → CString → Option CString
  | [], needle => if starts_with [] needle then some [] else none
  | c :: cs, needle =>
    if starts_with (c :: cs) needle then some (c :: cs) else strstr cs needle

/-- The marker `extract_text` looks for: the eight characters of the key text between
double quotes, a colon and the opening double quote of the value. -/
def text_marker : CString :=
  ['"', 't', 'e', 'x', 't', '"', ':', '"']

/-- The scan for the end of the text value in `extract_text`: the number of characters up
to the first double quote whose preceding character is not a backslash, or up to the end
of the text. The first argument is the character before the scan position,
`*(text_end - 1)`. -/
def find_text_end : Char → CString → Nat
  | _, [] => 0
  | prev, c :: cs => if c = '"' ∧ prev ≠ '\\' then 0 else find_text_end c cs + 1

/-- The copy loop of `extract_text` over the `len` characters of the value: a backslash
that is not the last character and is followed by `n`, `t`, a double quote or a backslash
gives one character and skips the next; every other character is copied. -/
def unescape_text : CString → CString
  | [] => []
  | [c] => [c]
  | c :: next :: rest =>
    if c = '\\' then
      if next = 'n' then '\n' :: unescape_text rest
      else if next = 't' then '\t' :: unescape_text rest
      else if next = '"' then '"' :: unescape_text rest
      else if next = '\\' then '\\' :: unescape_text rest
      else c :: unescape_text (next :: rest)
    else c :: unescape_text (next :: rest)

/-- The function `extract_text` of nerd_llm.c: NULL when the marker does not occur, else
the unescaped text between the marker and the end the scan finds. The scan starts behind
the marker, whose last character, a double quote, is the character before it. -/
def extract_text (json : CString) : Option CString :=
  match strstr json text_marker with
  | none => none
  | some found =>
    let text_start := found.drop 8
    let len := find_text_end '"' text_start
    some (unescape_text (text_start.take len))

/-- The escaping of one character that the claim on `extract_text` names `esc`: backslash,
double quote, newline and tab become two characters, every other character stays. -/
def esc_char (c : Char) : CString :=
  if c = '\\' then ['\\', '\\']
  else if c = '"' then ['\\', '"']
  else if c = '\n' then ['\\', 'n']
  else if c = '\t' then ['\\', 't']
  else [c]

/-- The escaping `esc` of a text, character by character. -/
def esc (s : CString) : CString :=
  s.flatMap esc_char

/-- The table `base64_table` of nerd_http.c. -/
def base64_table : CString :=
  "ABCDEFGHIJKLMNOPQRSTUVWXYZabcdefghijklmnopqrstuvwxyz0123456789+/".toList

/-- One pass of the loop body of `base64_encode` on the octets `a`, `b`, `c` (0 for an
octet past the end of the input): the 32-bit `triple` and the four table characters. The
table index is below 64 by the mask, so the default of the lookup is never used. -/
def base64_quad (octet_a octet_b octet_c : Nat) : CString :=
  let triple := ((octet_a <<< 16) + (octet_b <<< 8) + octet_c) % 4294967296
  [base64_table.getD ((triple >>> 18) &&& 0x3F) 'A',
   base64_table.getD ((triple >>> 12) &&& 0x3F) 'A',
   base64_table.getD ((triple >>> 6) &&& 0x3F) 'A',
   base64_table.getD (triple &&& 0x3F) 'A']

/-- The loop of `base64_encode`, on the octets `(unsigned char)input[i]` still to be read:
three octets a pass, the missing ones of the last pass read as 0. -/
def base64_loop : List Nat → CString
  | [] => []
  | [a] => base64_quad a 0 0
  | [a, b] => base64_quad a b 0
  | a :: b :: c :: rest => base64_quad a b c ++ base64_loop rest

/-- The function `base64_encode` of nerd_http.c, on the octets of the input string: the
loop fills the output, then the padding overwrites its last one or two characters. -/
def base64_encode (input : List Nat) : CString :=
  let len := input.length
  let output_len := 4 * ((len + 2) / 3)
  let output := base64_loop input
  if len % 3 = 1 then (output.set (output_len - 1) '=').set (output_len - 2) '='
  else if len % 3 = 2 then output.set (output_len - 1) '='
  else output

/-- RFC 4648: the eight bits of an octet, most significant first. -/
def octet_bits (b : Nat) : List Nat :=
  [b / 128 % 2, b / 64 % 2, b / 32 % 2, b / 16 % 2, b / 8 % 2, b / 4 % 2, b / 2 % 2, b % 2]

/-- RFC 4648: the number a group of bits denotes, most significant bit first. -/
def bits_value (bits : List Nat) : Nat :=
  bits.foldl (fun v bit => 2 * v + bit) 0

/-- RFC 4648, table 1: the Base64 alphabet, `A` to `Z` for 0 to 25, `a` to `z` for 26 to
51, the digits for 52 to 61, plus for 62 and slash for 63. -/
def rfc4648_alphabet (v : Nat) : Char :=
  if v < 26 then Char.ofNat (65 + v)
  else if v < 52 then Char.ofNat (97 + (v - 26))
  else if v < 62 then Char.ofNat (48 + (v - 52))
  else if v = 62 then '+'
  else '/'

/-- RFC 4648: the bit stream cut into groups of six bits; when fewer than six bits are
left, bits with value zero are added on the right. -/
def rfc4648_sextets : List Nat → List Nat
  | b1 :: b2 :: b3 :: b4 :: b5 :: b6 :: rest =>
    bits_value [b1, b2, b3, b4, b5, b6] :: rfc4648_sextets rest
  | [] => []
  | [b1] => [bits_value [b1, 0, 0, 0, 0, 0]]
  | [b1, b2] => [bits_value [b1, b2, 0, 0, 0, 0]]
  | [b1, b2, b3] => [bits_value [b1, b2, b3, 0, 0, 0]]
  | [b1, b2, b3, b4] => [bits_value [b1, b2, b3, b4, 0, 0]]
  | [b1, b2, b3, b4, b5] => [bits_value [b1, b2, b3, b4, b5, 0]]

/-- RFC 4648: the padding behind the encoded data, two `=` when the final quantum has one
octet, one `=` when it has two, none when the input is a whole number of quanta. -/
def rfc4648_padding (n : Nat) : CString :=
  if n % 3 = 1 then ['=', '='] else if n % 3 = 2 then ['='] else []

/-- RFC 4648: the Base64 encoding of a string of octets. -/
def rfc4648_base64 (x : List Nat) : CString :=
  (rfc4648_sextets (x.flatMap octet_bits)).map rfc4648_alphabet ++ rfc4648_padding x.length

/-! ## Library facts: `strchr`, `skip_dot` -/

theorem strchr_eq_some {s : CString} {c : Char} {a b : CString}
    (h : strchr s c = some (a, b)) : s = a ++ c :: b ∧ c ∉ a := by
  induction s generalizing a b with
  | nil => simp [strchr] at h
  | cons x xs ih =>
    unfold strchr at h
    by_cases hx : x = c
    · simp only [hx, if_true, Option.some.injEq, Prod.mk.injEq] at h
      obtain ⟨rfl, rfl⟩ := h
      simp [hx]
    · simp only [hx, if_false, Option.map_eq_some', Prod.mk.injEq] at h
      obtain ⟨⟨a1, b1⟩, hp, rfl, rfl⟩ := h
      obtain ⟨h1, h2⟩ := ih hp
      refine ⟨by simp [h1], ?_⟩
      simp only [List.mem_cons, not_or]
      exact ⟨fun e => hx e.symm, h2⟩

theorem strchr_eq_none {s : CString} {c : Char} (h : c ∉ s) : strchr s c = none := by
  induction s with
  | nil => rfl
  | cons x xs ih =>
    simp only [List.mem_cons, not_or] at h
    have hx : ¬ x = c := fun e => h.1 e.symm
    simp [strchr, hx, ih h.2]

theorem strchr_append {a : CString} {c : Char} (b : CString) (h : c ∉ a) :
    strchr (a ++ c :: b) c = some (a, b) := by
  induction a with
  | nil => simp [strchr]
  | cons x xs ih =>
    simp only [List.mem_cons, not_or] at h
    have hx : ¬ x = c := fun e => h.1 e.symm
    simp [strchr, hx, ih h.2]

theorem skip_dot_length_le (s : CString) : (skip_dot s).length ≤ s.length := by
  cases s with
  | nil => simp [skip_dot]
  | cons c cs =>
    by_cases h : c = '.' <;> simp [skip_dot, h]

/-! ## Library facts: `atoi` reads back decimal text -/

/-- The ten characters that `Nat.digitChar` gives for the decimal digits. -/
theorem digitChar_facts (d : Nat) (h : d < 10) :
    isdigit (Nat.digitChar d) = true ∧ ((Nat.digitChar d).toNat : Int) - 48 = d
    ∧ isspace (Nat.digitChar d) = false ∧ Nat.digitChar d ≠ '-' ∧ Nat.digitChar d ≠ '+'
    ∧ Nat.digitChar d ≠ ']' := by
  interval_cases d <;> decide

/-- The digits that `Nat.toDigitsCore` puts in front of its accumulator are decimal digit
characters, at least one, and the digit loop of `atoi` reads the number back from them. -/
theorem toDigitsCore_spec (fuel : Nat) : ∀ (n : Nat) (ds : List Char), n < fuel →
    ∃ pre : List Char, Nat.toDigitsCore 10 fuel n ds = pre ++ ds ∧ pre ≠ []
      ∧ (∀ c ∈ pre, ∃ d, d < 10 ∧ c = Nat.digitChar d)
      ∧ ∀ (a : Int) (tail : CString),
          atoi_digits a (pre ++ tail) = atoi_digits (a * 10 ^ pre.length + n) tail := by
  induction fuel with
  | zero => intro n ds h; omega
  | succ fuel ih =>
    intro n ds h
    have hd := digitChar_facts (n % 10) (Nat.mod_lt _ (by decide))
    unfold Nat.toDigitsCore
    by_cases h0 : n / 10 = 0
    · refine ⟨[Nat.digitChar (n % 10)], by simp [h0], by simp, ?_, ?_⟩
      · intro c hc
        exact ⟨n % 10, Nat.mod_lt _ (by decide), by simpa using hc⟩
      · intro a tail
        have hn : n % 10 = n := by omega
        show atoi_digits a (Nat.digitChar (n % 10) :: tail) = _
        simp only [atoi_digits, hd.1, if_true, hd.2.1, List.length_singleton, pow_one]
        rw [hn]
    · have hlt : n / 10 < fuel := by omega
      obtain ⟨pre, h1, _, h3, h4⟩ := ih (n / 10) (Nat.digitChar (n % 10) :: ds) hlt
      refine ⟨pre ++ [Nat.digitChar (n % 10)], by simp [h0, h1], by simp, ?_, ?_⟩
      · intro c hc
        rcases List.mem_append.mp hc with hc | hc
        · exact h3 c hc
        · exact ⟨n % 10, Nat.mod_lt _ (by decide), by simpa using hc⟩
      · intro a tail
        have e : (pre ++ [Nat.digitChar (n % 10)]) ++ tail
            = pre ++ (Nat.digitChar (n % 10) :: tail) := by simp
        rw [e, h4 a (Nat.digitChar (n % 10) :: tail)]
        simp only [atoi_digits, hd.1, if_true, hd.2.1, List.length_append, List.length_singleton]
        have hn : ((n : Int)) = ((n / 10 : Nat) : Int) * 10 + ((n % 10 : Nat) : Int) := by
          have := Nat.div_add_mod n 10
          omega
        congr 1
        rw [pow_succ]
        push_cast at hn ⊢
        linarith

/-- The decimal digits of a natural number: non-empty, digit characters only, and read back
to the number by the digit loop of `atoi`. -/
theorem toDigits_spec (n : Nat) :
    Nat.toDigits 10 n ≠ [] ∧ (∀ c ∈ Nat.toDigits 10 n, ∃ d, d < 10 ∧ c = Nat.digitChar d)
    ∧ atoi_digits 0 (Nat.toDigits 10 n) = n := by
  obtain ⟨pre, h1, h2, h3, h4⟩ := toDigitsCore_spec (n + 1) n [] (Nat.lt_succ_self n)
  have e : Nat.toDigits 10 n = pre := by simpa [Nat.toDigits] using h1
  rw [e]
  refine ⟨h2, h3, ?_⟩
  have := h4 0 []
  simpa [atoi_digits] using this

theorem wrap_int_of_range (v : Int) (hlo : -2147483648 ≤ v) (hhi : v < 2147483648) :
    wrap_int v = v := by
  unfold wrap_int
  omega

theorem clamp_long_of_range (v : Int) (hlo : -2147483648 ≤ v) (hhi : v < 2147483648) :
    clamp_long v = v := by
  unfold clamp_long
  have h1 : ¬ v < -9223372036854775808 := by omega
  have h2 : ¬ 9223372036854775807 < v := by omega
  rw [if_neg h1, if_neg h2]

theorem atoi_toDigits (n : Nat) : atoi (Nat.toDigits 10 n) = wrap_int (clamp_long n) := by
  obtain ⟨h1, h2, h3⟩ := toDigits_spec n
  cases hs : Nat.toDigits 10 n with
  | nil => exact absurd hs h1
  | cons c cs =>
    obtain ⟨d, hd, rfl⟩ := h2 c (by simp [hs])
    have f := digitChar_facts d hd
    rw [hs] at h3
    simp only [atoi, List.dropWhile, f.2.2.1, f.2.2.2.1, f.2.2.2.2.1, if_false, h3]

theorem atoi_neg_toDigits (n : Nat) :
    atoi ('-' :: Nat.toDigits 10 n) = wrap_int (clamp_long (-(n : Int))) := by
  have hsp : isspace '-' = false := by decide
  simp only [atoi, List.dropWhile, hsp, if_true, (toDigits_spec n).2.2]

/-- Reading decimal text with `atoi` gives the number, saturated to a `long` and reduced
to an `int`. -/
theorem atoi_decimal (i : Int) : atoi (decimal i) = wrap_int (clamp_long i) := by
  unfold decimal
  by_cases h : i < 0
  · simp only [h, if_true]
    rw [atoi_neg_toDigits]
    congr 2
    omega
  · simp only [h, if_false]
    rw [atoi_toDigits]
    congr 2
    omega

/-- Decimal text contains no closing bracket. -/
theorem decimal_no_bracket (i : Int) : ']' ∉ decimal i := by
  have key : ∀ n : Nat, ']' ∉ Nat.toDigits 10 n := by
    intro n hmem
    obtain ⟨d, hd, e⟩ := (toDigits_spec n).2.1 _ hmem
    exact (digitChar_facts d hd).2.2.2.2.2 e.symm
  unfold decimal
  by_cases h : i < 0
  · simp only [h, if_true, List.mem_cons, not_or]
    exact ⟨by decide, key _⟩
  · simp only [h, if_false]
    exact key _

/-! ## The scanning loop -/

/-- The iteration bound is never reached: any bound of at least the remaining length gives
the same result as the remaining length itself. -/
theorem navigate_loop_fuel (n : Nat) : ∀ (m : Nat) (current : cJSON) (token ptr : CString),
    ptr.length ≤ n → ptr.length ≤ m →
    navigate_loop n current token ptr = navigate_loop m current token ptr := by
  induction n with
  | zero =>
    intro m current token ptr hn _
    have : ptr = [] := List.length_eq_zero.mp (Nat.le_zero.mp hn)
    subst this
    simp [navigate_loop]
  | succ n ih =>
    intro m current token ptr hn hm
    cases ptr with
    | nil => simp [navigate_loop]
    | cons c rest =>
      cases m with
      | zero => simp at hm
      | succ m =>
        simp only [List.length_cons, Nat.add_le_add_iff_right] at hn hm
        simp only [navigate_loop]
        by_cases hb : c = '['
        · simp only [hb, if_true]
          cases hl : lookup_token current token with
          | none => rfl
          | some cur =>
            cases hs : strchr rest ']' with
            | none => rfl
            | some p =>
              obtain ⟨digits, after⟩ := p
              have hlen : (skip_dot after).length ≤ rest.length := by
                have h1 := (strchr_eq_some hs).1
                have h2 := skip_dot_length_le after
                rw [h1]
                simp only [List.length_append, List.length_cons]
                omega
              simp only []
              split
              · rfl
              · exact ih m _ _ _ (le_trans hlen hn) (le_trans hlen hm)
        · simp only [hb, if_false]
          by_cases hd : c = '.'
          · simp only [hd, if_true]
            cases hl : lookup_token current token with
            | none => rfl
            | some cur => exact ih m _ _ _ hn hm
          · simp only [hd, if_false]
            exact ih m _ _ _ hn hm

theorem navigate_path_some (root : cJSON) (path : CString) :
    navigate_path (some root) (some path) = navigate_loop path.length root [] path := by
  cases path with
  | nil => simp [navigate_path, navigate_loop, lookup_token]
  | cons c cs => rfl

theorem navigate_path_none (path : Option CString) : navigate_path none path = none := by
  simp [navigate_path]

/-- Scanning the characters of a plain key only extends the pending token. -/
theorem navigate_loop_key (k : CString) : ∀ (n : Nat) (current : cJSON) (token rest : CString),
    '.' ∉ k → '[' ∉ k →
    navigate_loop (k.length + n) current token (k ++ rest)
      = navigate_loop n current (token ++ k) rest := by
  induction k with
  | nil => intro n current token rest _ _; simp
  | cons c cs ih =>
    intro n current token rest hdot hbr
    simp only [List.mem_cons, not_or] at hdot hbr
    have h1 : ¬ c = '[' := fun e => hbr.1 e.symm
    have h2 : ¬ c = '.' := fun e => hdot.1 e.symm
    have e : (c :: cs).length + n = (cs.length + n) + 1 := by simp; omega
    rw [e]
    simp only [List.cons_append, navigate_loop, h1, h2, if_false]
    simpa using ih n current (token ++ [c]) rest hdot.2 hbr.2

/-- After a plain, non-empty key the loop stands at the separator with the key pending. -/
theorem navigate_path_key (root : cJSON) (k : CString) (c : Char) (r : CString)
    (hdot : '.' ∉ k) (hbr : '[' ∉ k) :
    navigate_path (some root) (some (k ++ c :: r))
      = navigate_loop (r.length + 1) root k (c :: r) := by
  rw [navigate_path_some]
  have e : (k ++ c :: r).length = k.length + (r.length + 1) := by simp
  rw [e, navigate_loop_key k _ root [] (c :: r) hdot hbr]
  simp

/-- A plain, non-empty key followed by a dot or by an opening bracket: the loop looks the
key up on the root and goes on from the member found, with the rest of the path. -/
theorem navigate_path_key_step (t : Option cJSON) (k r : CString)
    (hk : k ≠ []) (hdot : '.' ∉ k) (hbr : '[' ∉ k) :
    navigate_path t (some (k ++ '.' :: r))
        = navigate_path (t.bind (fun n => cJSON_GetObjectItemCaseSensitive n k)) (some r)
    ∧ navigate_path t (some (k ++ '[' :: r))
        = navigate_path (t.bind (fun n => cJSON_GetObjectItemCaseSensitive n k))
            (some ('[' :: r)) := by
  cases t with
  | none => simp [navigate_path_none]
  | some root =>
    show navigate_path (some root) (some (k ++ '.' :: r))
          = navigate_path (cJSON_GetObjectItemCaseSensitive root k) (some r)
        ∧ navigate_path (some root) (some (k ++ '[' :: r))
          = navigate_path (cJSON_GetObjectItemCaseSensitive root k) (some ('[' :: r))
    rw [navigate_path_key root k '.' r hdot hbr, navigate_path_key root k '[' r hdot hbr]
    have hd : ¬ ('.' = '[') := by decide
    simp only [navigate_loop, hd, if_false, if_true, lookup_token, hk]
    cases hm : cJSON_GetObjectItemCaseSensitive root k with
    | none => simp [navigate_path_none]
    | some m =>
      constructor
      · rw [navigate_path_some]
      · rw [navigate_path_some]
        simp [navigate_loop, lookup_token]

/-! ## C1: key-prefix factorisation -/

/-- C1. Key-prefix factorisation of navigation: for every tree `t` (possibly null), every
non-empty key `k` containing neither a dot nor an opening bracket, and every string `r`,
the path `k.r` resolves on `t` to what `r` resolves to on the member `m` of `t` named `k`,
and the path `k[r` resolves on `t` to what `[r` resolves to on `m`; when `t` has no such
member both results are none. -/
theorem navigate_key_then_rest (t : Option cJSON) (k r : CString)
    (hk : k ≠ []) (hdot : '.' ∉ k) (hbr : '[' ∉ k) :
    nerd_json_get_object t (some (k ++ '.' :: r))
        = nerd_json_get_object (t.bind (fun n => cJSON_GetObjectItemCaseSensitive n k)) (some r)
    ∧ nerd_json_get_object t (some (k ++ '[' :: r))
        = nerd_json_get_object (t.bind (fun n => cJSON_GetObjectItemCaseSensitive n k))
            (some ('[' :: r))
    ∧ (t.bind (fun n => cJSON_GetObjectItemCaseSensitive n k) = none →
        nerd_json_get_object t (some (k ++ '.' :: r)) = none
        ∧ nerd_json_get_object t (some (k ++ '[' :: r)) = none) := by
  have key := navigate_path_key_step t k r hk hdot hbr
  unfold nerd_json_get_object
  refine ⟨key.1, key.2, fun hnone => ?_⟩
  rw [key.1, key.2, hnone]
  exact ⟨rfl, rfl⟩

/-- Witness for C1 on scenario 1: `user.name` factors through the member `user`, and the
two reads of the scenario give "Ana" and "y". -/
theorem navigate_key_then_rest_witness :
    ("user".toList ≠ [] ∧ '.' ∉ "user".toList ∧ '[' ∉ "user".toList)
    ∧ nerd_json_get_object (some scenario1) (some ("user".toList ++ '.' :: "name".toList))
        = nerd_json_get_object
            ((some scenario1).bind (fun n => cJSON_GetObjectItemCaseSensitive n "user".toList))
            (some "name".toList)
    ∧ nerd_json_get_string (some scenario1) (some "user.name".toList) = "Ana".toList
    ∧ nerd_json_get_string (some scenario1) (some "user.tags[1]".toList) = "y".toList :=
  ⟨by decide,
   (navigate_key_then_rest (some scenario1) "user".toList "name".toList
      (by decide) (by decide) (by decide)).1,
   by decide, by decide⟩

/-- One index segment: after `[digits]` the loop continues on the selected element with
the rest of the path, the dot after the bracket skipped. -/
theorem navigate_path_index (cur : cJSON) (digits rest : CString) (h : ']' ∉ digits) :
    navigate_path (some cur) (some ('[' :: digits ++ ']' :: rest))
      = (cJSON_GetArrayItem cur
          (if atoi digits < 0 then cJSON_GetArraySize cur + atoi digits else atoi digits)).bind
          (fun item => navigate_path (some item) (some (skip_dot rest))) := by
  rw [navigate_path_some]
  show navigate_loop ((digits ++ ']' :: rest).length + 1) cur [] ('[' :: (digits ++ ']' :: rest))
    = _
  simp only [navigate_loop, if_true, lookup_token, strchr_append rest h]
  cases hi : cJSON_GetArrayItem cur
      (if atoi digits < 0 then cJSON_GetArraySize cur + atoi digits else atoi digits) with
  | none => rfl
  | some item =>
    show _ = navigate_path (some item) (some (skip_dot rest))
    rw [navigate_path_some]
    apply navigate_loop_fuel
    · have := skip_dot_length_le rest
      simp only [List.length_append, List.length_cons]
      omega
    · exact le_refl _

/-! ## C2: negative indices count from the end -/

/-- C2. Negative indices count from the end: for every Array of length `n` (a C `int`, so
below 2^31) and every integer `i` with `-n <= i < n`, written in decimal inside the
brackets, the path `[i]` resolves to the element at position `i` if `i >= 0` and `n + i`
otherwise, a position inside the array, and so to the same element as the path written
with that non-negative index. -/
theorem index_counts_from_end (items : List cJSON) (i : Int)
    (hn : items.length < 2147483648)
    (hlo : -(items.length : Int) ≤ i) (hhi : i < (items.length : Int)) :
    nerd_json_get_object (some (.array items)) (some ('[' :: decimal i ++ [']']))
        = items[(if 0 ≤ i then i else (items.length : Int) + i).toNat]?
    ∧ (if 0 ≤ i then i else (items.length : Int) + i).toNat < items.length
    ∧ nerd_json_get_object (some (.array items)) (some ('[' :: decimal i ++ [']']))
        = nerd_json_get_object (some (.array items))
            (some ('[' :: decimal (if 0 ≤ i then i else (items.length : Int) + i) ++ [']'])) := by
  have step : ∀ j : Int, -(items.length : Int) ≤ j → j < (items.length : Int) →
      nerd_json_get_object (some (.array items)) (some ('[' :: decimal j ++ [']']))
        = items[(if 0 ≤ j then j else (items.length : Int) + j).toNat]? := by
    intro j hjlo hjhi
    unfold nerd_json_get_object
    rw [navigate_path_index _ _ _ (decimal_no_bracket j), atoi_decimal,
      clamp_long_of_range j (by omega) (by omega), wrap_int_of_range j (by omega) (by omega)]
    by_cases hj : j < 0
    · have h1 : ¬ (0 ≤ j) := by omega
      have h2 : ¬ ((items.length : Int) + j < 0) := by omega
      simp only [hj, h1, if_true, if_false, cJSON_GetArraySize, cJSON_GetArrayItem, h2]
      cases items[((items.length : Int) + j).toNat]? <;> simp [skip_dot, navigate_path]
    · have h1 : 0 ≤ j := by omega
      simp only [hj, h1, if_true, if_false, cJSON_GetArrayItem]
      cases items[j.toNat]? <;> simp [skip_dot, navigate_path]
  have hpos : (if 0 ≤ i then i else (items.length : Int) + i).toNat < items.length := by
    split <;> omega
  refine ⟨step i hlo hhi, hpos, ?_⟩
  rw [step i hlo hhi, step _ (by split <;> omega) (by split <;> omega)]
  have h0 : 0 ≤ (if 0 ≤ i then i else (items.length : Int) + i) := by split <;> omega
  simp only [h0, if_true]

/-- Witness for C2 on the array of scenario 1: `[-1]` selects position 1 of the two
elements, and the paths `user.tags[-1]` and `user.tags[1]` both give "y". -/
theorem index_counts_from_end_witness :
    nerd_json_get_object (some (.array [.string "x".toList, .string "y".toList]))
        (some ('[' :: decimal (-1) ++ [']']))
      = some (.string "y".toList)
    ∧ decimal (-1) = "-1".toList
    ∧ nerd_json_get_string (some scenario1) (some "user.tags[-1]".toList) = "y".toList
    ∧ nerd_json_get_string (some scenario1) (some "user.tags[1]".toList) = "y".toList :=
  ⟨(index_counts_from_end [.string "x".toList, .string "y".toList] (-1)
      (by decide) (by decide) (by decide)).1,
   by decide, by decide, by decide⟩

/-! ## C3: an out-of-range index is a miss -/

/-- C3 (as amended). Out-of-range index is a miss: for every Array of length `n`, the empty
array included, and every integer `i` that fits a 32-bit `int` with `i >= n` or `i < -n`,
the path `[i]` yields not found: `nerd_json_get_object` is none and `nerd_json_has` is 0. -/
theorem index_out_of_range_miss (items : List cJSON) (i : Int)
    (hlo : -2147483648 ≤ i) (hhi : i < 2147483648)
    (hout : (items.length : Int) ≤ i ∨ i < -(items.length : Int)) :
    nerd_json_get_object (some (.array items)) (some ('[' :: decimal i ++ [']'])) = none
    ∧ nerd_json_has (some (.array items)) (some ('[' :: decimal i ++ [']'])) = 0 := by
  have key : navigate_path (some (.array items)) (some ('[' :: decimal i ++ [']'])) = none := by
    rw [navigate_path_index _ _ _ (decimal_no_bracket i), atoi_decimal,
      clamp_long_of_range i hlo hhi, wrap_int_of_range i hlo hhi]
    by_cases hi : i < 0
    · have h2 : (items.length : Int) + i < 0 := by omega
      simp [hi, cJSON_GetArraySize, cJSON_GetArrayItem, h2]
    · have h3 : items.length ≤ i.toNat := by omega
      simp [hi, cJSON_GetArrayItem, List.getElem?_eq_none h3]
  refine ⟨key, ?_⟩
  unfold nerd_json_has
  rw [key]

/-- Witness for C3 as amended: index 0 on the empty array and index -2 on a one-element
array are misses. -/
theorem index_out_of_range_miss_witness :
    nerd_json_has (some (.array [])) (some ('[' :: decimal 0 ++ [']'])) = 0
    ∧ nerd_json_has (some (.array [.null])) (some ('[' :: decimal (-2) ++ [']'])) = 0 :=
  ⟨(index_out_of_range_miss [] 0 (by decide) (by decide) (by decide)).2,
   (index_out_of_range_miss [.null] (-2) (by decide) (by decide) (by decide)).2⟩

/-- Counterexample to C3 as stated: 4294967296 is not below the length 1 of the array, yet
the path `[4294967296]` is found, since `atoi` delivers an `int` and the value wraps to 0:
the lookup returns the first element and `nerd_json_has` is 1. -/
theorem index_out_of_range_counterexample :
    decimal 4294967296 = "4294967296".toList
    ∧ ((([cJSON.string "x".toList].length : Nat) : Int) ≤ 4294967296)
    ∧ nerd_json_get_object (some (.array [.string "x".toList]))
        (some ('[' :: decimal 4294967296 ++ [']'])) = some (.string "x".toList)
    ∧ nerd_json_has (some (.array [.string "x".toList]))
        (some ('[' :: decimal 4294967296 ++ [']'])) = 1 :=
  ⟨by decide, by decide, by rfl, by decide⟩

/-! ## C4: an unterminated bracket is a miss -/

/-- Dropping a first character keeps an unterminated bracket, unless that character is the
unterminated bracket itself. -/
theorem unterminated_tail (x : Char) (s : CString)
    (h : ∃ pre post, x :: s = pre ++ '[' :: post ∧ ']' ∉ post) :
    (x = '[' ∧ ']' ∉ s) ∨ ∃ pre post, s = pre ++ '[' :: post ∧ ']' ∉ post := by
  obtain ⟨pre, post, e, hp⟩ := h
  cases pre with
  | nil =>
    simp only [List.nil_append, List.cons.injEq] at e
    exact Or.inl ⟨e.1, e.2 ▸ hp⟩
  | cons y pre1 =>
    simp only [List.cons_append, List.cons.injEq] at e
    exact Or.inr ⟨pre1, post, e.2, hp⟩

/-- An unterminated bracket lies behind every closing bracket. -/
theorem unterminated_after (a b : CString)
    (h : ∃ pre post, a ++ ']' :: b = pre ++ '[' :: post ∧ ']' ∉ post) :
    ∃ pre post, b = pre ++ '[' :: post ∧ ']' ∉ post := by
  induction a with
  | nil =>
    rcases unterminated_tail ']' b h with h1 | h1
    · exact absurd h1.1 (by decide)
    · exact h1
  | cons x a1 ih =>
    rcases unterminated_tail x (a1 ++ ']' :: b) h with h1 | h1
    · exact absurd (List.mem_append_right a1 (List.mem_cons_self _ _)) h1.2
    · exact ih h1

theorem unterminated_skip_dot (s : CString)
    (h : ∃ pre post, s = pre ++ '[' :: post ∧ ']' ∉ post) :
    ∃ pre post, skip_dot s = pre ++ '[' :: post ∧ ']' ∉ post := by
  cases s with
  | nil => exact h
  | cons c cs =>
    by_cases hc : c = '.'
    · simp only [skip_dot, hc, if_true]
      rcases unterminated_tail c cs h with h1 | h1
      · rw [hc] at h1
        exact absurd h1.1 (by decide)
      · exact h1
    · simpa only [skip_dot, hc, if_false] using h

/-- The loop ends with a null `current` whenever the text still to be scanned contains an
opening bracket with no closing bracket behind it. -/
theorem navigate_loop_unterminated (n : Nat) : ∀ (current : cJSON) (token ptr : CString),
    ptr.length ≤ n → (∃ pre post, ptr = pre ++ '[' :: post ∧ ']' ∉ post) →
    navigate_loop n current token ptr = none := by
  induction n with
  | zero =>
    intro current token ptr hn h
    obtain ⟨pre, post, e, _⟩ := h
    rw [e] at hn
    simp at hn
  | succ n ih =>
    intro current token ptr hn h
    cases ptr with
    | nil =>
      obtain ⟨pre, post, e, _⟩ := h
      simp at e
    | cons c rest =>
      simp only [List.length_cons, Nat.add_le_add_iff_right] at hn
      simp only [navigate_loop]
      by_cases hb : c = '['
      · simp only [hb, if_true]
        cases lookup_token current token with
        | none => rfl
        | some cur =>
          cases hs : strchr rest ']' with
          | none => rfl
          | some q =>
            obtain ⟨digits, after⟩ := q
            have e := (strchr_eq_some hs).1
            have hrest : ∃ pre post, rest = pre ++ '[' :: post ∧ ']' ∉ post := by
              rcases unterminated_tail c rest h with h1 | h1
              · rw [e] at h1
                exact absurd (List.mem_append_right digits (List.mem_cons_self _ _)) h1.2
              · exact h1
            have hafter := unterminated_skip_dot after (unterminated_after digits after (e ▸ hrest))
            have hlen : (skip_dot after).length ≤ n := by
              have h2 := skip_dot_length_le after
              rw [e] at hn
              simp only [List.length_append, List.length_cons] at hn
              omega
            simp only []
            split
            · rfl
            · exact ih _ _ _ hlen hafter
      · have hrest : ∃ pre post, rest = pre ++ '[' :: post ∧ ']' ∉ post := by
          rcases unterminated_tail c rest h with h1 | h1
          · exact absurd h1.1 hb
          · exact h1
        simp only [hb, if_false]
        by_cases hd : c = '.'
        · simp only [hd, if_true]
          cases lookup_token current token with
          | none => rfl
          | some cur => exact ih _ _ _ hn hrest
        · simp only [hd, if_false]
          exact ih _ _ _ hn hrest

/-- C4. Unterminated bracket is a navigation miss: for every tree `t`, of any type or null,
and every path that contains an opening bracket with no closing bracket anywhere after it,
`nerd_json_has` is 0, `nerd_json_get_object` is none and the typed accessors return their
defaults (empty string, 0, false, count 0), exactly as for an absent key. -/
theorem unterminated_bracket_miss (t : Option cJSON) (pre post : CString) (h : ']' ∉ post) :
    nerd_json_has t (some (pre ++ '[' :: post)) = 0
    ∧ nerd_json_get_object t (some (pre ++ '[' :: post)) = none
    ∧ nerd_json_get_string t (some (pre ++ '[' :: post)) = []
    ∧ nerd_json_get_number t (some (pre ++ '[' :: post)) = 0
    ∧ nerd_json_get_bool t (some (pre ++ '[' :: post)) = 0
    ∧ nerd_json_count t (some (pre ++ '[' :: post)) = 0 := by
  have key : navigate_path t (some (pre ++ '[' :: post)) = none := by
    cases t with
    | none => exact navigate_path_none _
    | some root =>
      rw [navigate_path_some]
      exact navigate_loop_unterminated _ root [] _ (le_refl _) ⟨pre, post, rfl, h⟩
  simp only [nerd_json_has, nerd_json_get_object, nerd_json_get_string, nerd_json_get_number,
    nerd_json_get_bool, nerd_json_count, key, and_self]

/-- Witness for C4: the path `a[0` misses on an object whose member `a` is an array, on
which the terminated path `a[0]` is found, and it misses on a null tree too. -/
theorem unterminated_bracket_miss_witness :
    ']' ∉ "0".toList
    ∧ nerd_json_has (some (.object [("a".toList, .array [.number 1])]))
        (some ("a".toList ++ '[' :: "0".toList)) = 0
    ∧ nerd_json_has (some (.object [("a".toList, .array [.number 1])]))
        (some "a[0]".toList) = 1
    ∧ nerd_json_has none (some ("a".toList ++ '[' :: "0".toList)) = 0 :=
  ⟨by decide,
   (unterminated_bracket_miss (some (.object [("a".toList, .array [.number 1])]))
      "a".toList "0".toList (by decide)).1,
   by decide,
   (unterminated_bracket_miss none "a".toList "0".toList (by decide)).1⟩

/-! ## C5, C6: a missing key -/

/-- The member lookup finds nothing under a key that no member carries. -/
theorem lookup_absent (members : List (CString × cJSON)) (k : CString)
    (h : ∀ v, (k, v) ∉ members) : members.lookup k = none := by
  induction members with
  | nil => rfl
  | cons m ms ih =>
    obtain ⟨k1, v1⟩ := m
    have hne : ¬ (k = k1) := by
      intro e
      exact h v1 (by simp [e])
    have hb : (k == k1) = false := by simpa using hne
    simp only [List.lookup, hb]
    exact ih (fun v hv => h v (List.mem_cons_of_mem _ hv))

/-- A plain, non-empty key as the whole path is the member lookup on the root. -/
theorem navigate_path_plain_key (root : cJSON) (k : CString) (hk : k ≠ [])
    (hdot : '.' ∉ k) (hbr : '[' ∉ k) :
    navigate_path (some root) (some k) = cJSON_GetObjectItemCaseSensitive root k := by
  rw [navigate_path_some]
  have h := navigate_loop_key k 0 root [] [] hdot hbr
  simp only [List.append_nil, Nat.add_zero, List.nil_append] at h
  rw [h]
  simp [navigate_loop, lookup_token, hk]

/-- C5. A key miss short-circuits: for every tree `t` and every non-empty key `k` containing
neither a dot nor an opening bracket, if `t` is not an Object or `t` has no member named
`k`, then for every string `r` the paths `k`, `k.r` and `k[r` all yield not found on `t`:
`nerd_json_has` is 0 and `nerd_json_get_string` is empty, whatever `r` is. -/
theorem key_miss_short_circuits (t : Option cJSON) (k r : CString)
    (hk : k ≠ []) (hdot : '.' ∉ k) (hbr : '[' ∉ k)
    (hmiss : (∀ members, t ≠ some (.object members))
      ∨ (∃ members, t = some (.object members) ∧ ∀ v, (k, v) ∉ members)) :
    (nerd_json_has t (some k) = 0 ∧ nerd_json_get_string t (some k) = [])
    ∧ (nerd_json_has t (some (k ++ '.' :: r)) = 0
        ∧ nerd_json_get_string t (some (k ++ '.' :: r)) = [])
    ∧ (nerd_json_has t (some (k ++ '[' :: r)) = 0
        ∧ nerd_json_get_string t (some (k ++ '[' :: r)) = []) := by
  have hm : t.bind (fun n => cJSON_GetObjectItemCaseSensitive n k) = none := by
    cases t with
    | none => rfl
    | some root =>
      show cJSON_GetObjectItemCaseSensitive root k = none
      rcases hmiss with h1 | ⟨members, h1, h2⟩
      · cases root with
        | object members => exact absurd rfl (h1 members)
        | _ => rfl
      · cases h1
        exact lookup_absent members k h2
  have h0 : navigate_path t (some k) = none := by
    cases t with
    | none => rfl
    | some root => rw [navigate_path_plain_key root k hk hdot hbr]; exact hm
  obtain ⟨h1, h2⟩ := navigate_path_key_step t k r hk hdot hbr
  rw [hm, navigate_path_none] at h1 h2
  simp only [nerd_json_has, nerd_json_get_string, h0, h1, h2, and_self]

/-- Witness for C5 (scenario 2): on the empty object the paths `missing` and `missing.key`
are not found and read as the empty string. -/
theorem key_miss_short_circuits_witness :
    nerd_json_has (some (.object [])) (some ("missing".toList ++ '.' :: "key".toList)) = 0
    ∧ nerd_json_get_string (some (.object [])) (some ("missing".toList ++ '.' :: "key".toList))
        = []
    ∧ "missing".toList ++ '.' :: "key".toList = "missing.key".toList :=
  ⟨(key_miss_short_circuits (some (.object [])) "missing".toList "key".toList
      (by decide) (by decide) (by decide) (Or.inr ⟨[], rfl, by simp⟩)).2.1.1,
   (key_miss_short_circuits (some (.object [])) "missing".toList "key".toList
      (by decide) (by decide) (by decide) (Or.inr ⟨[], rfl, by simp⟩)).2.1.2,
   by decide⟩

/-- C6 (as amended). Absent key gives the defaults: for every Object `o` and every non-empty
string `k` that contains neither a dot nor an opening bracket and is not a key of `o`,
passing `k` as the path gives `nerd_json_has` 0, `nerd_json_get_string` empty,
`nerd_json_get_number` 0 and `nerd_json_get_bool` 0. -/
theorem absent_key_defaults (members : List (CString × cJSON)) (k : CString)
    (hk : k ≠ []) (hdot : '.' ∉ k) (hbr : '[' ∉ k) (habs : ∀ v, (k, v) ∉ members) :
    nerd_json_has (some (.object members)) (some k) = 0
    ∧ nerd_json_get_string (some (.object members)) (some k) = []
    ∧ nerd_json_get_number (some (.object members)) (some k) = 0
    ∧ nerd_json_get_bool (some (.object members)) (some k) = 0 := by
  have h0 : navigate_path (some (.object members)) (some k) = none := by
    rw [navigate_path_plain_key _ k hk hdot hbr]
    exact lookup_absent members k habs
  simp only [nerd_json_has, nerd_json_get_string, nerd_json_get_number, nerd_json_get_bool, h0,
    and_self]

/-- Witness for C6 as amended: `b` is not a key of an object whose only member is `a`. -/
theorem absent_key_defaults_witness :
    nerd_json_has (some (.object [("a".toList, .number 1)])) (some "b".toList) = 0
    ∧ nerd_json_get_string (some (.object [("a".toList, .number 1)])) (some "b".toList) = []
    ∧ nerd_json_get_number (some (.object [("a".toList, .number 1)])) (some "b".toList) = 0
    ∧ nerd_json_get_bool (some (.object [("a".toList, .number 1)])) (some "b".toList) = 0 :=
  absent_key_defaults [("a".toList, .number 1)] "b".toList (by decide) (by decide) (by decide)
    (by simp)

/-- Counterexample to C6 as stated, where `k` is any string that is not a key. The empty
string is no key of the empty object, yet as a path it denotes the root, which is found.
The string `a.b` is no key of an object whose member `a` holds a member `b`, and the string
`a[0]` is no key of an object whose member `a` holds an array, yet as paths both are found,
and the first reads as a number other than 0. -/
theorem absent_key_counterexample :
    ((∀ v, (([] : CString), v) ∉ ([] : List (CString × cJSON)))
      ∧ nerd_json_has (some (.object [])) (some []) = 1)
    ∧ ((∀ v, ("a.b".toList, v) ∉ [("a".toList, cJSON.object [("b".toList, .number 5)])])
      ∧ nerd_json_has (some (.object [("a".toList, .object [("b".toList, .number 5)])]))
          (some "a.b".toList) = 1
      ∧ nerd_json_get_number (some (.object [("a".toList, .object [("b".toList, .number 5)])]))
          (some "a.b".toList) = 5)
    ∧ ((∀ v, ("a[0]".toList, v) ∉ [("a".toList, cJSON.array [.bool true])])
      ∧ nerd_json_has (some (.object [("a".toList, .array [.bool true])]))
          (some "a[0]".toList) = 1
      ∧ nerd_json_get_bool (some (.object [("a".toList, .array [.bool true])]))
          (some "a[0]".toList) = 1) := by
  refine ⟨⟨by simp, by decide⟩, ⟨?_, by decide, by rfl⟩, ⟨?_, by decide, by decide⟩⟩
  · intro v hv
    simp only [List.mem_singleton, Prod.mk.injEq] at hv
    exact absurd hv.1 (by decide)
  · intro v hv
    simp only [List.mem_singleton, Prod.mk.injEq] at hv
    exact absurd hv.1 (by decide)

/-! ## C7: the typed accessors -/

/-- C7. Typed accessors are the default-on-miss projection of the navigator. With `r` the
result of `nerd_json_get_object`: `nerd_json_has` is 1 when `r` is a node of any type and 0
when it is none; `nerd_json_get_string` is the text of `r` if `r` is a String, else empty;
`nerd_json_get_number` is the value of `r` if `r` is a Number, else 0; `nerd_json_get_bool`
is 1 exactly when `r` is the boolean true and 0 otherwise; `nerd_json_count` is the number
of elements of `r` if `r` is an Array, else 0. A type mismatch gives the result of a miss. -/
theorem accessors_project_navigator (t : Option cJSON) (p : Option CString) :
    (nerd_json_has t p = if (nerd_json_get_object t p).isSome then 1 else 0)
    ∧ (∀ s, nerd_json_get_object t p = some (.string s) → nerd_json_get_string t p = s)
    ∧ ((∀ s, nerd_json_get_object t p ≠ some (.string s)) → nerd_json_get_string t p = [])
    ∧ (∀ d, nerd_json_get_object t p = some (.number d) → nerd_json_get_number t p = d)
    ∧ ((∀ d, nerd_json_get_object t p ≠ some (.number d)) → nerd_json_get_number t p = 0)
    ∧ (nerd_json_get_object t p = some (.bool true) → nerd_json_get_bool t p = 1)
    ∧ (nerd_json_get_object t p ≠ some (.bool true) → nerd_json_get_bool t p = 0)
    ∧ (∀ items, nerd_json_get_object t p = some (.array items) →
        nerd_json_count t p = (items.length : Int))
    ∧ ((∀ items, nerd_json_get_object t p ≠ some (.array items)) → nerd_json_count t p = 0) := by
  unfold nerd_json_get_object nerd_json_has nerd_json_get_string nerd_json_get_number
    nerd_json_get_bool nerd_json_count
  refine ⟨?_, ?_, ?_, ?_, ?_, ?_, ?_, ?_, ?_⟩
  · cases navigate_path t p <;> rfl
  · intro s h; rw [h]
  · intro h
    split
    · next s hs => exact absurd hs (h s)
    · rfl
  · intro d h; rw [h]
  · intro h
    split
    · next d hd => exact absurd hd (h d)
    · rfl
  · intro h; rw [h]
  · intro h
    split
    · next hb => exact absurd hb h
    · rfl
  · intro items h; rw [h]; rfl
  · intro h
    split
    · next items hi => exact absurd hi (h items)
    · rfl

/-- Witness for C7: members holding null, false, 0 and the empty string are present
(`nerd_json_has` is 1) although the typed reads give the defaults; the boolean read is 0 on
the number 1 and on the string reading true, and 1 on true; the count of a two-element
array is 2 and the count of a string is 0. -/
theorem accessors_project_navigator_witness :
    (nerd_json_has (some defaults_tree) (some "n".toList)
        = if (nerd_json_get_object (some defaults_tree) (some "n".toList)).isSome then 1 else 0)
    ∧ nerd_json_has (some defaults_tree) (some "n".toList) = 1
    ∧ nerd_json_has (some defaults_tree) (some "f".toList) = 1
    ∧ nerd_json_has (some defaults_tree) (some "z".toList) = 1
    ∧ nerd_json_has (some defaults_tree) (some "e".toList) = 1
    ∧ nerd_json_has (some defaults_tree) (some "absent".toList) = 0
    ∧ nerd_json_get_bool (some defaults_tree) (some "one".toList) = 0
    ∧ nerd_json_get_bool (some defaults_tree) (some "s".toList) = 0
    ∧ nerd_json_get_bool (some defaults_tree) (some "f".toList) = 0
    ∧ nerd_json_get_bool (some defaults_tree) (some "t".toList) = 1
    ∧ nerd_json_get_string (some defaults_tree) (some "s".toList) = "true".toList
    ∧ nerd_json_get_string (some defaults_tree) (some "one".toList) = []
    ∧ nerd_json_count (some defaults_tree) (some "l".toList) = 2
    ∧ nerd_json_count (some defaults_tree) (some "s".toList) = 0 :=
  ⟨(accessors_project_navigator (some defaults_tree) (some "n".toList)).1,
   by decide, by decide, by decide, by decide, by decide, by decide, by decide, by decide,
   by decide, by decide, by decide, by decide, by decide⟩

/-! ## C8: an index needs an Array -/

/-- C8 (as amended). An index segment requires an Array: for every node `c` that is not an
Array, every non-empty Object among them, and every integer `i`, the path `[i]` on `c` is
not found (`nerd_json_has` is 0); and for every Object `o` and every key `k` containing
neither a dot nor an opening bracket whose member in `o` is not an Array,
`nerd_json_has` of the path `k[i]` on `o` is 0. -/
theorem index_requires_array (i : Int) :
    (∀ c : cJSON, (∀ items, c ≠ .array items) →
      nerd_json_has (some c) (some ('[' :: decimal i ++ [']'])) = 0)
    ∧ (∀ (members : List (CString × cJSON)) (k : CString) (m : cJSON),
        '.' ∉ k → '[' ∉ k → members.lookup k = some m → (∀ items, m ≠ .array items) →
        nerd_json_has (some (.object members)) (some (k ++ '[' :: decimal i ++ [']'])) = 0) := by
  have part1 : ∀ c : cJSON, (∀ items, c ≠ .array items) →
      navigate_path (some c) (some ('[' :: decimal i ++ [']'])) = none := by
    intro c hc
    rw [navigate_path_index _ _ _ (decimal_no_bracket i)]
    cases c with
    | array items => exact absurd rfl (hc items)
    | _ => rfl
  refine ⟨fun c hc => ?_, fun members k m hdot hbr hm hna => ?_⟩
  · unfold nerd_json_has
    rw [part1 c hc]
  · have e : k ++ '[' :: decimal i ++ [']'] = k ++ '[' :: (decimal i ++ [']']) := by simp
    by_cases hk : k = []
    · subst hk
      unfold nerd_json_has
      have h1 := part1 (.object members) (fun items => by simp)
      simp only [List.nil_append] at h1 ⊢
      rw [h1]
    · have h2 := (navigate_path_key_step (some (.object members)) k (decimal i ++ [']'])
        hk hdot hbr).2
      have h3 : (some (cJSON.object members)).bind
          (fun n => cJSON_GetObjectItemCaseSensitive n k) = some m := hm
      rw [h3] at h2
      unfold nerd_json_has
      rw [e, h2]
      have h4 := part1 m hna
      simp only [List.cons_append] at h4
      rw [h4]

/-- Witness for C8 as amended: index 0 is not found on a non-empty object, nor behind the
key `a` of an object whose member `a` is a string. -/
theorem index_requires_array_witness :
    nerd_json_has (some (.object [("a".toList, .number 1)])) (some ('[' :: decimal 0 ++ [']']))
      = 0
    ∧ nerd_json_has (some (.object [("a".toList, .string "xy".toList)]))
        (some ("a".toList ++ '[' :: decimal 0 ++ [']'])) = 0
    ∧ "a".toList ++ '[' :: decimal 0 ++ [']'] = "a[0]".toList :=
  ⟨(index_requires_array 0).1 (.object [("a".toList, .number 1)]) (fun items => by simp),
   (index_requires_array 0).2 [("a".toList, .string "xy".toList)] "a".toList
      (.string "xy".toList) (by decide) (by decide) (by rfl) (fun items => by simp),
   by decide⟩

/-- Counterexample to C8 as stated, where `k` is any key of the Object: in an object with a
member named `a.b` holding a number and a member `a` holding an object whose member `b` is
an array, the member `a.b` is not an Array, yet the path `a.b[0]` is found, because the
dot in the key is read as a separator. -/
theorem index_requires_array_counterexample :
    ([("a.b".toList, cJSON.number 5),
        ("a".toList, cJSON.object [("b".toList, .array [.number 1])])].lookup "a.b".toList
      = some (.number 5))
    ∧ nerd_json_has (some (.object [("a.b".toList, .number 5),
          ("a".toList, .object [("b".toList, .array [.number 1])])]))
        (some ("a.b".toList ++ '[' :: decimal 0 ++ [']'])) = 1
    ∧ "a.b".toList ++ '[' :: decimal 0 ++ [']'] = "a.b[0]".toList :=
  ⟨by rfl, by decide, by decide⟩

/-! ## C9: the empty path -/

/-- C9. The empty path denotes the root: for every tree `t` of any type, null included,
`nerd_json_get_object` with the empty path returns `t` itself unchanged, and
`nerd_json_has` with the empty path is 1 whenever `t` is a node. -/
theorem empty_path_is_root (t : Option cJSON) :
    nerd_json_get_object t (some []) = t
    ∧ (∀ n : cJSON, nerd_json_has (some n) (some []) = 1) := by
  constructor
  · cases t <;> rfl
  · intro n
    rfl

/-! ## C10: set, then get -/

/-- Once the entry of a key is erased from members with pairwise distinct keys, the lookup
of that key finds nothing. -/
theorem lookup_erase (members : List (CString × cJSON)) (k : CString)
    (h : (members.map Prod.fst).Nodup) :
    (members.eraseP (fun m => m.1 = k)).lookup k = none := by
  induction members with
  | nil => rfl
  | cons m ms ih =>
    obtain ⟨k1, v1⟩ := m
    simp only [List.map_cons, List.nodup_cons] at h
    by_cases hk : k1 = k
    · have hp : decide (k1 = k) = true := by simp [hk]
      rw [List.eraseP_cons]
      simp only [hp, cond_true]
      apply lookup_absent
      intro v hv
      apply h.1
      rw [hk]
      exact List.mem_map.mpr ⟨(k, v), hv, rfl⟩
    · have hp : decide (k1 = k) = false := by simp [hk]
      rw [List.eraseP_cons]
      simp only [hp, cond_false]
      have hb : (k == k1) = false := by
        simpa using fun e : k = k1 => hk e.symm
      simp only [List.lookup, hb]
      exact ih h.2

/-- A lookup that finds nothing in the members finds an entry appended behind them. -/
theorem lookup_appended (members : List (CString × cJSON)) (k : CString) (item : cJSON)
    (h : members.lookup k = none) : (members ++ [(k, item)]).lookup k = some item := by
  induction members with
  | nil => simp [List.lookup]
  | cons m ms ih =>
    obtain ⟨k1, v1⟩ := m
    by_cases hb : (k == k1) = true
    · simp [List.lookup, hb] at h
    · have hb1 : (k == k1) = false := by simpa using hb
      simp only [List.lookup, hb1] at h
      simp only [List.cons_append, List.lookup, hb1]
      exact ih h

/-- After the delete-then-add of a setter, the path `k` leads to the new item. -/
theorem navigate_after_set (members : List (CString × cJSON)) (k : CString) (item : cJSON)
    (hk : k ≠ []) (hdot : '.' ∉ k) (hbr : '[' ∉ k) (huniq : (members.map Prod.fst).Nodup) :
    navigate_path
        (some (cJSON_AddItemToObject (cJSON_DeleteItemFromObject (.object members) k) k item))
        (some k) = some item := by
  rw [navigate_path_plain_key _ k hk hdot hbr]
  exact lookup_appended _ k item (lookup_erase members k huniq)

/-- C10 (as amended). Set then get (replace-or-insert): for every Object `o` whose keys are
pairwise distinct and every non-empty key `k` containing neither a dot nor an opening
bracket, present before or not: after `nerd_json_set_string(o, k, v)` the string
read at `k` is `v`, a null `v` being stored as the empty string; after
`nerd_json_set_number(o, k, x)` the number read is `x`; after `nerd_json_set_bool(o, k, b)`
the boolean read is 1 exactly when `b` is not 0; after `nerd_json_set_object(o, k, c)` the
node at `k` is `c`; and in every case `nerd_json_has(o, k)` is 1. -/
theorem set_then_get (members : List (CString × cJSON)) (k : CString)
    (hk : k ≠ []) (hdot : '.' ∉ k) (hbr : '[' ∉ k) (huniq : (members.map Prod.fst).Nodup)
    (v : Option CString) (x : Rat) (b : Int) (c : cJSON) :
    (nerd_json_get_string (nerd_json_set_string (some (.object members)) (some k) v) (some k)
        = v.getD []
      ∧ nerd_json_has (nerd_json_set_string (some (.object members)) (some k) v) (some k) = 1)
    ∧ (nerd_json_get_number (nerd_json_set_number (some (.object members)) (some k) x) (some k)
        = x
      ∧ nerd_json_has (nerd_json_set_number (some (.object members)) (some k) x) (some k) = 1)
    ∧ (nerd_json_get_bool (nerd_json_set_bool (some (.object members)) (some k) b) (some k)
        = (if b ≠ 0 then 1 else 0)
      ∧ nerd_json_has (nerd_json_set_bool (some (.object members)) (some k) b) (some k) = 1)
    ∧ (nerd_json_get_object (nerd_json_set_object (some (.object members)) (some k) (some c))
        (some k) = some c
      ∧ nerd_json_has (nerd_json_set_object (some (.object members)) (some k) (some c))
        (some k) = 1) := by
  have h := fun item => navigate_after_set members k item hk hdot hbr huniq
  refine ⟨?_, ?_, ?_, ?_⟩
  · simp only [nerd_json_get_string, nerd_json_has, nerd_json_set_string, h, and_self]
  · simp only [nerd_json_get_number, nerd_json_has, nerd_json_set_number, h, and_self]
  · simp only [nerd_json_get_bool, nerd_json_has, nerd_json_set_bool, h, and_true]
    by_cases hb : b = 0
    · simp [hb]
    · simp [hb]
  · simp only [nerd_json_get_object, nerd_json_has, nerd_json_set_object, h, and_self]

/-- Witness for C10: on an object that already has the member `count`, and one other
member, each setter makes its value the one read back at `count`. -/
theorem set_then_get_witness :
    (nerd_json_get_string (nerd_json_set_string
        (some (.object [("count".toList, .number 1), ("a".toList, .null)]))
        (some "count".toList) (some "v".toList)) (some "count".toList) = "v".toList)
    ∧ (nerd_json_get_string (nerd_json_set_string
        (some (.object [("count".toList, .number 1), ("a".toList, .null)]))
        (some "count".toList) none) (some "count".toList) = [])
    ∧ (nerd_json_set_number (some (.object [("count".toList, .number 1), ("a".toList, .null)]))
        (some "count".toList) 5
        = some (.object [("a".toList, .null), ("count".toList, .number 5)])) :=
  ⟨(set_then_get [("count".toList, .number 1), ("a".toList, .null)] "count".toList
      (by decide) (by decide) (by decide) (by decide) (some "v".toList) 5 1 .null).1.1,
   (set_then_get [("count".toList, .number 1), ("a".toList, .null)] "count".toList
      (by decide) (by decide) (by decide) (by decide) none 5 1 .null).1.1,
   by rfl⟩

/-- Counterexample to C10 as stated, for every Object: on an object that holds the key `a`
twice, with the numbers 1 and 2, as a parser may deliver it for a text that repeats the
key, `nerd_json_set_number` with the key `a` and the value 5 removes the first entry only
and appends the new one behind the second; the number read back at `a` is 2, not 5, and
after `nerd_json_set_string` the string read back is empty, not the string set. -/
theorem set_then_get_counterexample :
    nerd_json_set_number (some (.object [("a".toList, .number 1), ("a".toList, .number 2)]))
        (some "a".toList) 5
      = some (.object [("a".toList, .number 2), ("a".toList, .number 5)])
    ∧ nerd_json_get_number
        (nerd_json_set_number
          (some (.object [("a".toList, .number 1), ("a".toList, .number 2)]))
          (some "a".toList) 5) (some "a".toList) = 2
    ∧ nerd_json_get_number
        (nerd_json_set_number
          (some (.object [("a".toList, .number 1), ("a".toList, .number 2)]))
          (some "a".toList) 5) (some "a".toList) ≠ 5
    ∧ nerd_json_get_string
        (nerd_json_set_string
          (some (.object [("a".toList, .number 1), ("a".toList, .number 2)]))
          (some "a".toList) (some "v".toList)) (some "a".toList) = []
    ∧ nerd_json_get_string
        (nerd_json_set_string
          (some (.object [("a".toList, .number 1), ("a".toList, .number 2)]))
          (some "a".toList) (some "v".toList)) (some "a".toList) ≠ "v".toList := by
  refine ⟨by rfl, by rfl, ?_, by decide, by decide⟩
  have h : nerd_json_get_number
      (nerd_json_set_number
        (some (.object [("a".toList, .number 1), ("a".toList, .number 2)]))
        (some "a".toList) 5) (some "a".toList) = 2 := by rfl
  rw [h]
  norm_num

/-! ## C11, C12, C13: what the setters keep -/

/-- The delete-then-add of a setter on an Object: the first entry under the key is erased
and the new entry is appended. -/
theorem set_members (members : List (CString × cJSON)) (k : CString) (item : cJSON) :
    cJSON_AddItemToObject (cJSON_DeleteItemFromObject (.object members) k) k item
      = .object (members.eraseP (fun m => m.1 = k) ++ [(k, item)]) := rfl

/-- On a node that is not an Object the delete-then-add of a setter changes nothing. -/
theorem set_non_object (node : cJSON) (k : CString) (item : cJSON)
    (h : ∀ members, node ≠ .object members) :
    cJSON_AddItemToObject (cJSON_DeleteItemFromObject node k) k item = node := by
  cases node with
  | object members => exact absurd rfl (h members)
  | _ => rfl

/-- With pairwise distinct keys, erasing the entry of a key leaves no entry under it. -/
theorem erase_key_not_mem (members : List (CString × cJSON)) (k : CString)
    (h : (members.map Prod.fst).Nodup) :
    k ∉ (members.eraseP (fun m => m.1 = k)).map Prod.fst := by
  induction members with
  | nil => simp
  | cons m ms ih =>
    obtain ⟨k1, v1⟩ := m
    simp only [List.map_cons, List.nodup_cons] at h
    rw [List.eraseP_cons]
    by_cases hk : k1 = k
    · have hp : decide (k1 = k) = true := by simp [hk]
      simp only [hp, cond_true]
      rw [← hk]
      exact h.1
    · have hp : decide (k1 = k) = false := by simp [hk]
      simp only [hp, cond_false, List.map_cons, List.mem_cons, not_or]
      exact ⟨fun e => hk e.symm, ih h.2⟩

/-- The members after a setter have pairwise distinct keys when they had before, and the
key that was set is among them. -/
theorem set_keys_nodup (members : List (CString × cJSON)) (k : CString) (item : cJSON)
    (h : (members.map Prod.fst).Nodup) :
    ((members.eraseP (fun m => m.1 = k) ++ [(k, item)]).map Prod.fst).Nodup
    ∧ k ∈ (members.eraseP (fun m => m.1 = k) ++ [(k, item)]).map Prod.fst := by
  constructor
  · rw [List.map_append, List.nodup_append]
    refine ⟨?_, List.nodup_singleton _, ?_⟩
    · exact List.Nodup.sublist (List.Sublist.map Prod.fst (List.eraseP_sublist members)) h
    · intro a ha hb
      simp only [List.map_cons, List.map_nil, List.mem_singleton] at hb
      rw [hb] at ha
      exact erase_key_not_mem members k h ha
  · rw [List.map_append]
    exact List.mem_append_right _ (List.mem_cons_self k [])

/-- The lookup of another key is not affected by the delete-then-add of a setter. -/
theorem lookup_set_other (members : List (CString × cJSON)) (k k1 : CString) (item : cJSON)
    (hne : k ≠ k1) :
    (members.eraseP (fun m => m.1 = k) ++ [(k, item)]).lookup k1 = members.lookup k1 := by
  induction members with
  | nil =>
    have hb : (k1 == k) = false := by simpa using fun e : k1 = k => hne e.symm
    simp [List.lookup, hb]
  | cons m ms ih =>
    obtain ⟨k2, v2⟩ := m
    rw [List.eraseP_cons]
    by_cases hk : k2 = k
    · have hp : decide (k2 = k) = true := by simp [hk]
      have hb : (k1 == k2) = false := by
        simpa using fun e : k1 = k2 => hne (by rw [e, hk])
      simp only [hp, cond_true, List.lookup, hb]
      have hnone : (ms ++ [(k, item)]).lookup k1 = ms.lookup k1 := by
        clear ih
        induction ms with
        | nil =>
          have hb1 : (k1 == k) = false := by simpa using fun e : k1 = k => hne e.symm
          simp [List.lookup, hb1]
        | cons m1 ms1 ih1 =>
          obtain ⟨k3, v3⟩ := m1
          by_cases h3 : (k1 == k3) = true
          · simp [List.lookup, h3]
          · have h3f : (k1 == k3) = false := by simpa using h3
            simp only [List.cons_append, List.lookup, h3f]
            exact ih1
      exact hnone
    · have hp : decide (k2 = k) = false := by simp [hk]
      simp only [hp, cond_false, List.cons_append]
      by_cases h2 : (k1 == k2) = true
      · simp [List.lookup, h2]
      · have h2f : (k1 == k2) = false := by simpa using h2
        simp only [List.lookup, h2f]
        exact ih

/-- The members under other keys stay, in their order, through a setter. -/
theorem filter_set_other (members : List (CString × cJSON)) (k : CString) (item : cJSON) :
    (members.eraseP (fun m => m.1 = k) ++ [(k, item)]).filter (fun m => m.1 ≠ k)
      = members.filter (fun m => m.1 ≠ k) := by
  induction members with
  | nil => simp
  | cons m ms ih =>
    obtain ⟨k2, v2⟩ := m
    rw [List.eraseP_cons]
    by_cases hk : k2 = k
    · have hp : decide (k2 = k) = true := by simp [hk]
      simp only [hp, cond_true]
      simp [hk]
    · have hp : decide (k2 = k) = false := by simp [hk]
      simp only [hp, cond_false, List.cons_append]
      rw [List.filter_cons, List.filter_cons, ih]

/-- C11. Key uniqueness is an invariant of the setters: for every Object whose keys are
pairwise distinct, after any call of `nerd_json_set_string`, `nerd_json_set_number`,
`nerd_json_set_bool` or `nerd_json_set_object`, with any key (a null one included) and any
value, the tree is an Object whose keys are still pairwise distinct: an existing key is
replaced, never duplicated. -/
theorem setters_keep_keys_distinct (members : List (CString × cJSON))
    (huniq : (members.map Prod.fst).Nodup)
    (key : Option CString) (v : Option CString) (x : Rat) (b : Int) (c : Option cJSON)
    (r : Option cJSON)
    (hr : r = nerd_json_set_string (some (.object members)) key v
      ∨ r = nerd_json_set_number (some (.object members)) key x
      ∨ r = nerd_json_set_bool (some (.object members)) key b
      ∨ r = nerd_json_set_object (some (.object members)) key c) :
    ∃ ms, r = some (.object ms) ∧ (ms.map Prod.fst).Nodup := by
  cases key with
  | none =>
    refine ⟨members, ?_, huniq⟩
    rcases hr with h | h | h | h <;> rw [h] <;> rfl
  | some k =>
    rcases hr with h | h | h | h
    · exact ⟨members.eraseP (fun m => m.1 = k) ++ [(k, .string (v.getD []))], by rw [h]; rfl,
        (set_keys_nodup members k _ huniq).1⟩
    · exact ⟨members.eraseP (fun m => m.1 = k) ++ [(k, .number x)], by rw [h]; rfl,
        (set_keys_nodup members k _ huniq).1⟩
    · exact ⟨members.eraseP (fun m => m.1 = k) ++ [(k, .bool (decide (b ≠ 0)))], by rw [h]; rfl,
        (set_keys_nodup members k _ huniq).1⟩
    · cases c with
      | none => exact ⟨members, by rw [h]; rfl, huniq⟩
      | some node =>
        exact ⟨members.eraseP (fun m => m.1 = k) ++ [(k, node)], by rw [h]; rfl,
          (set_keys_nodup members k _ huniq).1⟩

/-- Witness for C11: setting the key `a`, already present, on an object with the keys `a`
and `b` gives an object with the keys `b` and `a`, each once. -/
theorem setters_keep_keys_distinct_witness :
    ∃ ms, nerd_json_set_number
        (some (.object [("a".toList, .number 1), ("b".toList, .null)])) (some "a".toList) 2
      = some (.object ms) ∧ (ms.map Prod.fst).Nodup :=
  setters_keep_keys_distinct [("a".toList, .number 1), ("b".toList, .null)] (by decide)
    (some "a".toList) none 2 0 none _ (Or.inr (Or.inl rfl))

/-- What a setter with a key that is not null leaves behind on an Object: the members
with the first entry under the key erased and a new entry appended, or, for
`nerd_json_set_object` with a null value, the members as they were. -/
theorem set_result (members : List (CString × cJSON)) (k : CString)
    (v : Option CString) (x : Rat) (b : Int) (c : Option cJSON) (r : Option cJSON)
    (hr : r = nerd_json_set_string (some (.object members)) (some k) v
      ∨ r = nerd_json_set_number (some (.object members)) (some k) x
      ∨ r = nerd_json_set_bool (some (.object members)) (some k) b
      ∨ r = nerd_json_set_object (some (.object members)) (some k) c) :
    r = some (.object members)
    ∨ ∃ item, r = some (.object (members.eraseP (fun m => m.1 = k) ++ [(k, item)])) := by
  rcases hr with h | h | h | h
  · exact Or.inr ⟨.string (v.getD []), by rw [h]; rfl⟩
  · exact Or.inr ⟨.number x, by rw [h]; rfl⟩
  · exact Or.inr ⟨.bool (decide (b ≠ 0)), by rw [h]; rfl⟩
  · cases c with
    | none => exact Or.inl (by rw [h]; rfl)
    | some node => exact Or.inr ⟨node, by rw [h]; rfl⟩

/-- C12. Setters touch only their key: for every Object `o` and every two different keys
`k` and `k1`, the second without a dot or an opening bracket, a call of
`nerd_json_set_string`, `nerd_json_set_number`, `nerd_json_set_bool` or
`nerd_json_set_object` with the key `k` leaves the member `k1` as it was: `nerd_json_has`
of `k1` and the node `nerd_json_get_object` gives for `k1` are the same before and after
the call (for the empty `k1` the node is the root, the object itself, before and after),
and the members under keys other than `k` keep their values and their relative order. -/
theorem setters_touch_only_their_key (members : List (CString × cJSON)) (k k1 : CString)
    (hne : k ≠ k1) (hdot : '.' ∉ k1) (hbr : '[' ∉ k1)
    (v : Option CString) (x : Rat) (b : Int) (c : Option cJSON) (r : Option cJSON)
    (hr : r = nerd_json_set_string (some (.object members)) (some k) v
      ∨ r = nerd_json_set_number (some (.object members)) (some k) x
      ∨ r = nerd_json_set_bool (some (.object members)) (some k) b
      ∨ r = nerd_json_set_object (some (.object members)) (some k) c) :
    nerd_json_has r (some k1) = nerd_json_has (some (.object members)) (some k1)
    ∧ (k1 ≠ [] → nerd_json_get_object r (some k1)
        = nerd_json_get_object (some (.object members)) (some k1))
    ∧ (k1 = [] → nerd_json_get_object r (some k1) = r
        ∧ nerd_json_get_object (some (.object members)) (some k1) = some (.object members))
    ∧ ∃ ms, r = some (.object ms)
        ∧ ms.filter (fun m => m.1 ≠ k) = members.filter (fun m => m.1 ≠ k) := by
  rcases set_result members k v x b c r hr with h | ⟨item, h⟩
  · rw [h]
    exact ⟨rfl, fun _ => rfl, fun e => by rw [e]; exact ⟨rfl, rfl⟩, members, rfl, rfl⟩
  · have hnav : k1 ≠ [] → navigate_path r (some k1)
        = navigate_path (some (.object members)) (some k1) := by
      intro hk1
      rw [h, navigate_path_plain_key _ k1 hk1 hdot hbr, navigate_path_plain_key _ k1 hk1 hdot hbr]
      exact lookup_set_other members k k1 item hne
    refine ⟨?_, hnav, ?_, _, h, filter_set_other members k item⟩
    · by_cases hk1 : k1 = []
      · rw [h, hk1]
        rfl
      · unfold nerd_json_has
        rw [hnav hk1]
    · intro e
      rw [h, e]
      exact ⟨rfl, rfl⟩

/-- Witness for C12: setting `a` on an object with the members `a`, `b` and `c` leaves `b`
found with its value, and the members `b` and `c` in their order. -/
theorem setters_touch_only_their_key_witness :
    nerd_json_has (nerd_json_set_string
        (some (.object [("a".toList, .number 1), ("b".toList, .number 2), ("c".toList, .null)]))
        (some "a".toList) (some "v".toList)) (some "b".toList) = 1
    ∧ nerd_json_set_string
        (some (.object [("a".toList, .number 1), ("b".toList, .number 2), ("c".toList, .null)]))
        (some "a".toList) (some "v".toList)
      = some (.object [("b".toList, .number 2), ("c".toList, .null),
          ("a".toList, .string "v".toList)]) :=
  ⟨(setters_touch_only_their_key
      [("a".toList, .number 1), ("b".toList, .number 2), ("c".toList, .null)]
      "a".toList "b".toList (by decide) (by decide) (by decide)
      (some "v".toList) 0 0 none _ (Or.inl rfl)).1,
   by rfl⟩

/-- C13. Invalid mutation target is a no-op: for every node `j` that is not an Object
(Array, String, Number, Bool or null literal), and for a null target, every call of
`nerd_json_set_string`, `nerd_json_set_number`, `nerd_json_set_bool` or
`nerd_json_set_object` on `j`, with any key and value, leaves `j` unchanged: the same
node with the same children, the same `nerd_json_count` and the same
`nerd_json_stringify` output. -/
theorem setters_ignore_non_object (j : Option cJSON)
    (hj : ∀ members, j ≠ some (.object members))
    (key : Option CString) (v : Option CString) (x : Rat) (b : Int) (c : Option cJSON)
    (r : Option cJSON)
    (hr : r = nerd_json_set_string j key v
      ∨ r = nerd_json_set_number j key x
      ∨ r = nerd_json_set_bool j key b
      ∨ r = nerd_json_set_object j key c)
    (print_double : Rat → CString) (p : Option CString) :
    r = j
    ∧ nerd_json_count r p = nerd_json_count j p
    ∧ nerd_json_stringify print_double r = nerd_json_stringify print_double j := by
  have key_fact : r = j := by
    cases j with
    | none => rcases hr with h | h | h | h <;> rw [h] <;> rfl
    | some node =>
      have hn : ∀ members, node ≠ .object members := fun members e => hj members (by rw [e])
      cases key with
      | none => rcases hr with h | h | h | h <;> rw [h] <;> rfl
      | some k =>
        rcases hr with h | h | h | h
        · rw [h]
          exact congrArg some (set_non_object node k _ hn)
        · rw [h]
          exact congrArg some (set_non_object node k _ hn)
        · rw [h]
          exact congrArg some (set_non_object node k _ hn)
        · cases c with
          | none => rw [h]; rfl
          | some item =>
            rw [h]
            exact congrArg some (set_non_object node k item hn)
  rw [key_fact]
  exact ⟨rfl, rfl, rfl⟩

/-- Witness for C13: setting a key on an array of two elements leaves the array, and
setting a key on a null target leaves it null. -/
theorem setters_ignore_non_object_witness :
    nerd_json_set_number (some (.array [.null, .bool true])) (some "a".toList) 5
      = some (.array [.null, .bool true])
    ∧ nerd_json_set_string none (some "a".toList) (some "v".toList) = none :=
  ⟨(setters_ignore_non_object (some (.array [.null, .bool true])) (fun members => by simp)
      (some "a".toList) none 5 0 none _ (Or.inr (Or.inl rfl)) (fun _ => []) none).1,
   (setters_ignore_non_object none (fun members => by simp)
      (some "a".toList) (some "v".toList) 0 0 none _ (Or.inl rfl) (fun _ => []) none).1⟩

/-! ## C14: the setters take the key literally -/

/-- Two roots on which every plain, non-empty key finds the same member give the same
result for a path without brackets that looks at least one key up. -/
theorem navigate_loop_roots (a b : cJSON)
    (hlook : ∀ s : CString, s ≠ [] → '.' ∉ s →
      cJSON_GetObjectItemCaseSensitive a s = cJSON_GetObjectItemCaseSensitive b s) :
    ∀ (ptr : CString) (n : Nat) (token : CString), '[' ∉ ptr → '.' ∉ token →
      (token ≠ [] ∨ ∃ c ∈ ptr, c ≠ '.') →
      navigate_loop n a token ptr = navigate_loop n b token ptr := by
  intro ptr
  induction ptr with
  | nil =>
    intro n token _ htok hsome
    have ht : token ≠ [] := by
      rcases hsome with h | ⟨c, hc, _⟩
      · exact h
      · simp at hc
    simp only [navigate_loop, lookup_token, ht, if_false]
    exact hlook token ht htok
  | cons c rest ih =>
    intro n token hbr htok hsome
    simp only [List.mem_cons, not_or] at hbr
    have hc1 : ¬ c = '[' := fun e => hbr.1 e.symm
    cases n with
    | zero => simp [navigate_loop]
    | succ n =>
      simp only [navigate_loop, hc1, if_false]
      by_cases hd : c = '.'
      · simp only [hd, if_true]
        by_cases ht : token = []
        · have hrest : ∃ c1 ∈ rest, c1 ≠ '.' := by
            rcases hsome with h | ⟨c1, hc, hne⟩
            · exact absurd ht h
            · rcases List.mem_cons.mp hc with e | hin
              · rw [e] at hne
                exact absurd hd hne
              · exact ⟨c1, hin, hne⟩
          simp only [lookup_token, ht, if_true]
          exact ih n [] hbr.2 (by simp) (Or.inr hrest)
        · simp only [lookup_token, ht, if_false]
          rw [hlook token ht htok]
      · simp only [hd, if_false]
        apply ih n (token ++ [c]) hbr.2
        · simp only [List.mem_append, List.mem_singleton, not_or]
          exact ⟨htok, fun e => hd e.symm⟩
        · exact Or.inl (by simp)

/-- A path of dots only looks no key up and denotes the root. -/
theorem navigate_loop_dots (root : cJSON) :
    ∀ (ptr : CString) (n : Nat), (∀ c ∈ ptr, c = '.') → ptr.length ≤ n →
      navigate_loop n root [] ptr = some root := by
  intro ptr
  induction ptr with
  | nil => intro n _ _; simp [navigate_loop, lookup_token]
  | cons c rest ih =>
    intro n hall hn
    cases n with
    | zero => simp at hn
    | succ n =>
      have hc : c = '.' := hall c (List.mem_cons_self _ _)
      have hd : ¬ ('.' = '[') := by decide
      simp only [List.length_cons, Nat.add_le_add_iff_right] at hn
      simp only [hc, navigate_loop, hd, if_false, if_true, lookup_token]
      exact ih n (fun c1 h1 => hall c1 (List.mem_cons_of_mem _ h1)) hn

/-- C14. The mutator is not path-aware: for every Object `o`, every key `k` that contains a
dot and no opening bracket, and every `v`, `nerd_json_set_string(o, k, v)` appends, in
place of the first member with that name, a top-level member literally named `k`, and it
does not change what the path `k` resolves to: `nerd_json_has` and `nerd_json_get_string`
give the same results after the call as before it, and so does `nerd_json_get_object`
(for a key of dots only the path denotes the root, the object itself, before and after). -/
theorem setter_not_path_aware (members : List (CString × cJSON)) (k : CString)
    (hdot : '.' ∈ k) (hbr : '[' ∉ k) (v : Option CString) :
    (nerd_json_set_string (some (.object members)) (some k) v
        = some (.object (members.eraseP (fun m => m.1 = k) ++ [(k, .string (v.getD []))])))
    ∧ nerd_json_has (nerd_json_set_string (some (.object members)) (some k) v) (some k)
        = nerd_json_has (some (.object members)) (some k)
    ∧ nerd_json_get_string (nerd_json_set_string (some (.object members)) (some k) v) (some k)
        = nerd_json_get_string (some (.object members)) (some k)
    ∧ ((∃ c ∈ k, c ≠ '.') →
        nerd_json_get_object (nerd_json_set_string (some (.object members)) (some k) v) (some k)
          = nerd_json_get_object (some (.object members)) (some k))
    ∧ ((∀ c ∈ k, c = '.') →
        nerd_json_get_object (nerd_json_set_string (some (.object members)) (some k) v) (some k)
          = nerd_json_set_string (some (.object members)) (some k) v
        ∧ nerd_json_get_object (some (.object members)) (some k) = some (.object members)) := by
  have hset : nerd_json_set_string (some (.object members)) (some k) v
      = some (.object (members.eraseP (fun m => m.1 = k) ++ [(k, .string (v.getD []))])) := rfl
  have hlook : ∀ s : CString, s ≠ [] → '.' ∉ s →
      cJSON_GetObjectItemCaseSensitive
          (.object (members.eraseP (fun m => m.1 = k) ++ [(k, .string (v.getD []))])) s
        = cJSON_GetObjectItemCaseSensitive (.object members) s := by
    intro s _ hs
    have hne : k ≠ s := fun e => hs (e ▸ hdot)
    exact lookup_set_other members k s _ hne
  have hsame : (∃ c ∈ k, c ≠ '.') →
      navigate_path (nerd_json_set_string (some (.object members)) (some k) v) (some k)
        = navigate_path (some (.object members)) (some k) := by
    intro h
    rw [hset, navigate_path_some, navigate_path_some]
    exact navigate_loop_roots _ _ hlook k _ [] hbr (by simp) (Or.inr h)
  have hroot : (∀ c ∈ k, c = '.') →
      navigate_path (nerd_json_set_string (some (.object members)) (some k) v) (some k)
          = nerd_json_set_string (some (.object members)) (some k) v
        ∧ navigate_path (some (.object members)) (some k) = some (.object members) := by
    intro h
    rw [hset, navigate_path_some, navigate_path_some]
    exact ⟨navigate_loop_dots _ k _ h (le_refl _), navigate_loop_dots _ k _ h (le_refl _)⟩
  refine ⟨hset, ?_, ?_, hsame, hroot⟩
  · by_cases h : ∃ c ∈ k, c ≠ '.'
    · unfold nerd_json_has
      rw [hsame h]
    · have hall : ∀ c ∈ k, c = '.' := by
        intro c hc
        by_contra hne
        exact h ⟨c, hc, hne⟩
      unfold nerd_json_has
      rw [(hroot hall).1, (hroot hall).2, hset]
  · by_cases h : ∃ c ∈ k, c ≠ '.'
    · unfold nerd_json_get_string
      rw [hsame h]
    · have hall : ∀ c ∈ k, c = '.' := by
        intro c hc
        by_contra hne
        exact h ⟨c, hc, hne⟩
      unfold nerd_json_get_string
      rw [(hroot hall).1, (hroot hall).2, hset]

/-- Witness for C14: on an object whose member `a` holds a member `b` with the text old,
`nerd_json_set_string` with the key `a.b` appends a top-level member of that name, and
the path `a.b` still reads old. -/
theorem setter_not_path_aware_witness :
    nerd_json_get_string (nerd_json_set_string
        (some (.object [("a".toList, .object [("b".toList, .string "old".toList)])]))
        (some "a.b".toList) (some "v".toList)) (some "a.b".toList)
      = nerd_json_get_string
          (some (.object [("a".toList, .object [("b".toList, .string "old".toList)])]))
          (some "a.b".toList)
    ∧ nerd_json_get_string (nerd_json_set_string
        (some (.object [("a".toList, .object [("b".toList, .string "old".toList)])]))
        (some "a.b".toList) (some "v".toList)) (some "a.b".toList) = "old".toList
    ∧ nerd_json_set_string
        (some (.object [("a".toList, .object [("b".toList, .string "old".toList)])]))
        (some "a.b".toList) (some "v".toList)
      = some (.object [("a".toList, .object [("b".toList, .string "old".toList)]),
          ("a.b".toList, .string "v".toList)]) :=
  ⟨(setter_not_path_aware [("a".toList, .object [("b".toList, .string "old".toList)])]
      "a.b".toList (by decide) (by decide) (some "v".toList)).2.2.1,
   by decide, by rfl⟩

/-! ## C15, C17: serialising -/

/-- A character that is no double quote, no backslash and no control character is written
to the JSON text as it is. -/
theorem escape_char_plain (c : Char) (hq : c ≠ '"') (hb : c ≠ '\\') (hc : 32 ≤ c.toNat) :
    escape_char c = [c] := by
  have h1 : c ≠ '\x08' := by intro e; rw [e] at hc; exact absurd hc (by decide)
  have h2 : c ≠ '\x0c' := by intro e; rw [e] at hc; exact absurd hc (by decide)
  have h3 : c ≠ '\n' := by intro e; rw [e] at hc; exact absurd hc (by decide)
  have h4 : c ≠ '\r' := by intro e; rw [e] at hc; exact absurd hc (by decide)
  have h5 : c ≠ '\t' := by intro e; rw [e] at hc; exact absurd hc (by decide)
  have h6 : ¬ c.toNat < 32 := by omega
  simp only [escape_char, hq, hb, h1, h2, h3, h4, h5, h6, if_false]

/-- A string of such characters is written between two double quotes, unchanged. -/
theorem print_string_ptr_plain (s : CString)
    (h : ∀ c ∈ s, c ≠ '"' ∧ c ≠ '\\' ∧ 32 ≤ c.toNat) :
    print_string_ptr s = '"' :: (s ++ ['"']) := by
  have key : s.flatMap escape_char = s := by
    induction s with
    | nil => rfl
    | cons c cs ih =>
      have hc := h c (List.mem_cons_self _ _)
      rw [List.flatMap_cons, escape_char_plain c hc.1 hc.2.1 hc.2.2,
        ih (fun c1 h1 => h c1 (List.mem_cons_of_mem _ h1))]
      rfl
  unfold print_string_ptr
  rw [key]
  rfl

/-- The text of a number that is an `int` is its decimal text. -/
theorem print_number_int (print_double : Rat → CString) (n : Int)
    (hlo : -2147483648 ≤ n) (hhi : n < 2147483648) :
    print_number print_double (n : Rat) = decimal n := by
  unfold print_number
  have h : ((n : Rat)).den = 1 ∧ -2147483648 ≤ ((n : Rat)).num ∧ ((n : Rat)).num < 2147483648 := by
    simp only [Rat.intCast_den, Rat.intCast_num]
    exact ⟨trivial, hlo, hhi⟩
  rw [if_pos h]
  simp

/-- Decimal text consists of digits behind an optional minus sign: it holds no white space
and no decimal point. -/
theorem decimal_chars (n : Int) : ∀ c ∈ decimal n, isspace c = false ∧ c ≠ '.' := by
  have hdig : ∀ d : Nat, d < 10 → isspace (Nat.digitChar d) = false ∧ Nat.digitChar d ≠ '.' := by
    intro d hd
    interval_cases d <;> decide
  have key : ∀ m : Nat, ∀ c ∈ Nat.toDigits 10 m, isspace c = false ∧ c ≠ '.' := by
    intro m c hc
    obtain ⟨d, hd, e⟩ := (toDigits_spec m).2.1 c hc
    rw [e]
    exact hdig d hd
  intro c hc
  unfold decimal at hc
  by_cases h : n < 0
  · simp only [h, if_true, List.mem_cons] at hc
    rcases hc with e | hc
    · rw [e]
      decide
    · exact key _ c hc
  · simp only [h, if_false] at hc
    exact key _ c hc

/-- C15. Setting a number on the empty object and serialising gives compact canonical
text: for the tree returned by `nerd_json_new`, and equally for the tree a parser returns
that reads the two-character text of the empty object as the empty Object, after
`nerd_json_set_number(tree, k, n)`, with `k` a key of plain characters (no double quote,
no backslash, no control character) and `n` an integer representable as a C `int`,
`nerd_json_stringify(tree)` is exactly the text of an opening brace, the key between
double quotes, a colon, the decimal digits of `n` and a closing brace, with no white space
and no fractional part. -/
theorem set_number_then_stringify (print_double : Rat → CString) (k : CString) (n : Int)
    (hk : ∀ c ∈ k, c ≠ '"' ∧ c ≠ '\\' ∧ 32 ≤ c.toNat)
    (hlo : -2147483648 ≤ n) (hhi : n < 2147483648) :
    nerd_json_stringify print_double (nerd_json_set_number nerd_json_new (some k) (n : Rat))
        = '{' :: '"' :: (k ++ '"' :: ':' :: (decimal n ++ ['}']))
    ∧ (∀ cJSON_Parse : CString → Option cJSON,
        cJSON_Parse ['{', '}'] = some (.object []) →
        nerd_json_stringify print_double
            (nerd_json_set_number (nerd_json_parse cJSON_Parse (some ['{', '}'])) (some k)
              (n : Rat))
          = '{' :: '"' :: (k ++ '"' :: ':' :: (decimal n ++ ['}'])))
    ∧ (∀ c ∈ decimal n, isspace c = false ∧ c ≠ '.') := by
  have key : nerd_json_stringify print_double
      (nerd_json_set_number nerd_json_new (some k) (n : Rat))
        = '{' :: '"' :: (k ++ '"' :: ':' :: (decimal n ++ ['}'])) := by
    show cJSON_PrintUnformatted print_double (.object [(k, .number (n : Rat))]) = _
    simp only [cJSON_PrintUnformatted, print_object, print_object_more,
      print_string_ptr_plain k hk, print_number_int print_double n hlo hhi]
    simp
  refine ⟨key, ?_, decimal_chars n⟩
  intro parse hparse
  have e : nerd_json_parse parse (some ['{', '}']) = nerd_json_new := hparse
  rw [e]
  exact key

/-- Witness for C15 (scenario 3): after setting `count` to 5 on the new object the text is
the eleven characters of the compact object with that one member. -/
theorem set_number_then_stringify_witness :
    nerd_json_stringify (fun _ => []) (nerd_json_set_number nerd_json_new (some "count".toList) 5)
      = "\x7b\"count\":5\x7d".toList :=
  (set_number_then_stringify (fun _ => []) "count".toList 5 (by decide) (by decide)
    (by decide)).1

/-- C17. Stringify of an absent value is the empty-object text: `nerd_json_stringify`
applied to a null tree returns exactly the two-character text of an opening and a closing
brace, whatever the formatting of numbers. -/
theorem stringify_null (print_double : Rat → CString) :
    nerd_json_stringify print_double none = ['{', '}']
    ∧ (nerd_json_stringify print_double none).length = 2
    ∧ nerd_json_stringify print_double none = "\x7b\x7d".toList := by
  refine ⟨rfl, rfl, ?_⟩
  show ['{', '}'] = "\x7b\x7d".toList
  decide

/-! ## C18: an index token that is no number -/

/-- Text that does not begin with white space, a sign or a digit reads as 0. -/
theorem atoi_non_numeric (s : CString)
    (h : ∀ c rest, s = c :: rest →
      isspace c = false ∧ c ≠ '+' ∧ c ≠ '-' ∧ isdigit c = false) :
    atoi s = 0 := by
  cases s with
  | nil => rfl
  | cons c rest =>
    obtain ⟨h1, h2, h3, h4⟩ := h c rest rfl
    simp only [atoi, List.dropWhile, h1, h2, h3, if_false, atoi_digits, h4]
    rfl

/-- Two index tokens that `atoi` reads as the same number select the same element. -/
theorem navigate_path_index_same (t : Option cJSON) (s1 s2 rest : CString)
    (h1 : ']' ∉ s1) (h2 : ']' ∉ s2) (h : atoi s1 = atoi s2) :
    navigate_path t (some ('[' :: s1 ++ ']' :: rest))
      = navigate_path t (some ('[' :: s2 ++ ']' :: rest)) := by
  cases t with
  | none => rfl
  | some cur => rw [navigate_path_index cur s1 rest h1, navigate_path_index cur s2 rest h2, h]

/-- C18. A non-numeric index token behaves as index 0: for every tree `t`, every key `k`
without a dot or an opening bracket (the empty key included), and every token `s` that
contains no closing bracket and does not begin with white space, a sign or a digit (the
empty token included), the path `k[s]` resolves to the same node as the path `k[0]`. -/
theorem non_numeric_index_is_zero (t : Option cJSON) (k s : CString)
    (hdot : '.' ∉ k) (hbr : '[' ∉ k) (hs : ']' ∉ s)
    (hstart : ∀ c rest, s = c :: rest →
      isspace c = false ∧ c ≠ '+' ∧ c ≠ '-' ∧ isdigit c = false) :
    nerd_json_get_object t (some (k ++ '[' :: (s ++ [']'])))
      = nerd_json_get_object t (some (k ++ '[' :: ('0' :: [']']))) := by
  have hz : atoi s = atoi ['0'] := by rw [atoi_non_numeric s hstart]; rfl
  have h0 : ']' ∉ ['0'] := by decide
  unfold nerd_json_get_object
  by_cases hk : k = []
  · subst hk
    exact navigate_path_index_same t s ['0'] [] hs h0 hz
  · rw [(navigate_path_key_step t k (s ++ [']']) hk hdot hbr).2,
      (navigate_path_key_step t k ('0' :: [']']) hk hdot hbr).2]
    exact navigate_path_index_same _ s ['0'] [] hs h0 hz

/-- Witness for C18: on an object whose member `items` is an array, the paths
`items[abc]` and `items[]` resolve to the first element, as `items[0]` does. -/
theorem non_numeric_index_is_zero_witness :
    nerd_json_get_object
        (some (.object [("items".toList, .array [.string "first".toList, .number 2])]))
        (some ("items".toList ++ '[' :: ("abc".toList ++ [']'])))
      = nerd_json_get_object
          (some (.object [("items".toList, .array [.string "first".toList, .number 2])]))
          (some ("items".toList ++ '[' :: ('0' :: [']'])))
    ∧ "items".toList ++ '[' :: ("abc".toList ++ [']']) = "items[abc]".toList
    ∧ nerd_json_get_string
        (some (.object [("items".toList, .array [.string "first".toList, .number 2])]))
        (some "items[abc]".toList) = "first".toList
    ∧ nerd_json_get_string
        (some (.object [("items".toList, .array [.string "first".toList, .number 2])]))
        (some "items[]".toList) = "first".toList
    ∧ nerd_json_get_string
        (some (.object [("items".toList, .array [.string "first".toList, .number 2])]))
        (some "items[0]".toList) = "first".toList :=
  ⟨non_numeric_index_is_zero
      (some (.object [("items".toList, .array [.string "first".toList, .number 2])]))
      "items".toList "abc".toList (by decide) (by decide) (by decide)
      (fun c rest e => by
        have hc : c = 'a' := by
          have := congrArg List.head? e
          simpa using this.symm
        rw [hc]
        decide),
   by decide, by decide, by decide, by decide⟩

/-! ## C19: the dot after a closing bracket -/

theorem strchr_none_not_mem {s : CString} {c : Char} (h : strchr s c = none) : c ∉ s := by
  induction s with
  | nil => simp
  | cons x xs ih =>
    unfold strchr at h
    by_cases hx : x = c
    · simp [hx] at h
    · simp only [hx, if_false, Option.map_eq_none'] at h
      simp only [List.mem_cons, not_or]
      exact ⟨fun e => hx e.symm, ih h⟩

/-- Skipping a dot in front of text that holds an opening bracket leaves the bracket and
what follows it in place. -/
theorem skip_dot_append_bracket (b rest : CString) :
    skip_dot (b ++ '[' :: rest) = skip_dot b ++ '[' :: rest := by
  cases b with
  | nil =>
    have h : ¬ ('[' = '.') := by decide
    simp [skip_dot, h]
  | cons c cs =>
    by_cases hc : c = '.' <;> simp [skip_dot, hc]

/-- With no token pending, a dot at the scan position is skipped whether the loop scans it
or the bracket branch did. -/
theorem navigate_loop_skip_dot (cur : cJSON) (r : CString) (a b : Nat)
    (ha : r.length ≤ a) (hb : (skip_dot r).length ≤ b) :
    navigate_loop a cur [] r = navigate_loop b cur [] (skip_dot r) := by
  cases r with
  | nil => simp [skip_dot, navigate_loop]
  | cons c cs =>
    by_cases hc : c = '.'
    · cases a with
      | zero => simp at ha
      | succ a =>
        have hd : ¬ ('.' = '[') := by decide
        simp only [List.length_cons, Nat.add_le_add_iff_right] at ha
        simp only [skip_dot, hc, if_true] at hb ⊢
        simp only [navigate_loop, hd, if_false, if_true, lookup_token]
        exact navigate_loop_fuel a b cur [] cs ha hb
    · simp only [skip_dot, hc, if_false] at hb ⊢
      exact navigate_loop_fuel a b cur [] (c :: cs) ha hb

/-- An index segment read at the scan position gives the same result with and without a
dot behind its closing bracket. -/
theorem navigate_loop_bracket_dot (cur : cJSON) (tok digits r : CString) (n m : Nat)
    (hd : ']' ∉ digits) (hn : r.length + 1 ≤ n) (hm : r.length ≤ m) :
    navigate_loop (n + 1) cur tok ('[' :: (digits ++ ']' :: '.' :: r))
      = navigate_loop (m + 1) cur tok ('[' :: (digits ++ ']' :: r)) := by
  simp only [navigate_loop, if_true, strchr_append _ hd]
  cases lookup_token cur tok with
  | none => rfl
  | some cur1 =>
    simp only []
    cases cJSON_GetArrayItem cur1
        (if atoi digits < 0 then cJSON_GetArraySize cur1 + atoi digits else atoi digits) with
    | none => rfl
    | some item =>
      simp only []
      have h1 : skip_dot ('.' :: r) = r := by simp [skip_dot]
      rw [h1]
      have hlen := skip_dot_length_le r
      rw [navigate_loop_skip_dot item r n m (by omega) (by omega)]

/-- The loop gives the same result on a text that ends an index segment with a dot behind
the closing bracket and on the text without that dot. -/
theorem navigate_loop_dot_optional (N : Nat) : ∀ (q0 : CString), q0.length ≤ N →
    ∀ (cur : cJSON) (tok i r : CString) (n m : Nat), ']' ∉ i →
      (q0 ++ '[' :: (i ++ ']' :: '.' :: r)).length ≤ n →
      (q0 ++ '[' :: (i ++ ']' :: r)).length ≤ m →
      navigate_loop n cur tok (q0 ++ '[' :: (i ++ ']' :: '.' :: r))
        = navigate_loop m cur tok (q0 ++ '[' :: (i ++ ']' :: r)) := by
  induction N with
  | zero =>
    intro q0 hq cur tok i r n m hi hn hm
    have : q0 = [] := List.length_eq_zero.mp (Nat.le_zero.mp hq)
    subst this
    simp only [List.nil_append, List.length_cons, List.length_append] at hn hm ⊢
    obtain ⟨n1, rfl⟩ : ∃ n1, n = n1 + 1 := ⟨n - 1, by omega⟩
    obtain ⟨m1, rfl⟩ : ∃ m1, m = m1 + 1 := ⟨m - 1, by omega⟩
    exact navigate_loop_bracket_dot cur tok i r n1 m1 hi (by omega) (by omega)
  | succ N ih =>
    intro q0 hq cur tok i r n m hi hn hm
    cases q0 with
    | nil =>
      simp only [List.nil_append, List.length_cons, List.length_append] at hn hm ⊢
      obtain ⟨n1, rfl⟩ : ∃ n1, n = n1 + 1 := ⟨n - 1, by omega⟩
      obtain ⟨m1, rfl⟩ : ∃ m1, m = m1 + 1 := ⟨m - 1, by omega⟩
      exact navigate_loop_bracket_dot cur tok i r n1 m1 hi (by omega) (by omega)
    | cons c q1 =>
      simp only [List.cons_append, List.length_cons, List.length_append] at hn hm hq ⊢
      obtain ⟨n1, rfl⟩ : ∃ n1, n = n1 + 1 := ⟨n - 1, by omega⟩
      obtain ⟨m1, rfl⟩ : ∃ m1, m = m1 + 1 := ⟨m - 1, by omega⟩
      by_cases hb : c = '['
      · subst hb
        cases hs : strchr q1 ']' with
        | none =>
          have hq1 : ']' ∉ q1 ++ '[' :: i := by
            have h1 := strchr_none_not_mem hs
            simp only [List.mem_append, List.mem_cons, not_or]
            exact ⟨h1, by decide, hi⟩
          have e1 : q1 ++ '[' :: (i ++ ']' :: '.' :: r)
              = (q1 ++ '[' :: i) ++ ']' :: '.' :: r := by simp
          have e2 : q1 ++ '[' :: (i ++ ']' :: r) = (q1 ++ '[' :: i) ++ ']' :: r := by simp
          rw [e1, e2]
          exact navigate_loop_bracket_dot cur tok _ r n1 m1 hq1 (by omega) (by omega)
        | some q =>
          obtain ⟨a, b⟩ := q
          obtain ⟨e, ha⟩ := strchr_eq_some hs
          have e1 : q1 ++ '[' :: (i ++ ']' :: '.' :: r)
              = a ++ ']' :: (b ++ '[' :: (i ++ ']' :: '.' :: r)) := by rw [e]; simp
          have e2 : q1 ++ '[' :: (i ++ ']' :: r)
              = a ++ ']' :: (b ++ '[' :: (i ++ ']' :: r)) := by rw [e]; simp
          have hlen : q1.length = a.length + (b.length + 1) := by rw [e]; simp
          have hsb := skip_dot_length_le b
          rw [e1, e2]
          simp only [navigate_loop, if_true, strchr_append _ ha, skip_dot_append_bracket]
          cases lookup_token cur tok with
          | none => rfl
          | some cur1 =>
            simp only []
            cases cJSON_GetArrayItem cur1
                (if atoi a < 0 then cJSON_GetArraySize cur1 + atoi a else atoi a) with
            | none => rfl
            | some item =>
              simp only []
              apply ih (skip_dot b) (by omega) item [] i r n1 m1 hi
              · simp only [List.length_cons, List.length_append]
                omega
              · simp only [List.length_cons, List.length_append]
                omega
      · simp only [navigate_loop, hb, if_false]
        have hn1 : (q1 ++ '[' :: (i ++ ']' :: '.' :: r)).length ≤ n1 := by
          simp only [List.length_cons, List.length_append]
          omega
        have hm1 : (q1 ++ '[' :: (i ++ ']' :: r)).length ≤ m1 := by
          simp only [List.length_cons, List.length_append]
          omega
        by_cases hd : c = '.'
        · simp only [hd, if_true]
          cases lookup_token cur tok with
          | none => rfl
          | some cur1 => exact ih q1 (by omega) cur1 [] i r n1 m1 hi hn1 hm1
        · simp only [hd, if_false]
          exact ih q1 (by omega) cur (tok ++ [c]) i r n1 m1 hi hn1 hm1

/-- C19. The dot after a closing bracket is optional: for every tree `t`, every path prefix
ending in a complete index segment `[i]` (any text `i` without a closing bracket between
the brackets) and every string `r`, the path with a dot between that prefix and `r` and
the path without it resolve to the same node. -/
theorem dot_after_bracket_optional (t : Option cJSON) (q0 i r : CString) (hi : ']' ∉ i) :
    nerd_json_get_object t (some (q0 ++ '[' :: (i ++ ']' :: '.' :: r)))
      = nerd_json_get_object t (some (q0 ++ '[' :: (i ++ ']' :: r))) := by
  unfold nerd_json_get_object
  cases t with
  | none => rfl
  | some root =>
    rw [navigate_path_some, navigate_path_some]
    exact navigate_loop_dot_optional q0.length q0 (le_refl _) root [] i r _ _ hi
      (le_refl _) (le_refl _)

/-- Witness for C19: `users[0].profile` and `users[0]profile` resolve to the same node,
the profile of the first user. -/
theorem dot_after_bracket_optional_witness :
    nerd_json_get_object
        (some (.object [("users".toList, .array [.object [("profile".toList, .number 7)]])]))
        (some ("users".toList ++ '[' :: ("0".toList ++ ']' :: '.' :: "profile".toList)))
      = nerd_json_get_object
          (some (.object [("users".toList, .array [.object [("profile".toList, .number 7)]])]))
          (some ("users".toList ++ '[' :: ("0".toList ++ ']' :: "profile".toList)))
    ∧ "users".toList ++ '[' :: ("0".toList ++ ']' :: '.' :: "profile".toList)
        = "users[0].profile".toList
    ∧ "users".toList ++ '[' :: ("0".toList ++ ']' :: "profile".toList)
        = "users[0]profile".toList
    ∧ nerd_json_get_number
        (some (.object [("users".toList, .array [.object [("profile".toList, .number 7)]])]))
        (some "users[0]profile".toList) = 7 :=
  ⟨dot_after_bracket_optional
      (some (.object [("users".toList, .array [.object [("profile".toList, .number 7)]])]))
      "users".toList "0".toList "profile".toList (by decide),
   by decide, by decide, by rfl⟩

/-! ## C20: the loop ends -/

/-- The bounded loop in terms of single iterations. -/
theorem navigate_loop_step (n : Nat) (current : cJSON) (token : CString) (c : Char)
    (rest : CString) :
    navigate_loop (n + 1) current token (c :: rest)
      = match navigate_step current token c rest with
        | none => none
        | some (cur, tok, ptr) => navigate_loop n cur tok ptr := by
  simp only [navigate_loop, navigate_step]
  by_cases hb : c = '['
  · simp only [hb, if_true]
    cases lookup_token current token with
    | none => rfl
    | some cur =>
      cases strchr rest ']' with
      | none => rfl
      | some q =>
        obtain ⟨digits, after⟩ := q
        simp only []
        cases cJSON_GetArrayItem cur
          (if atoi digits < 0 then cJSON_GetArraySize cur + atoi digits else atoi digits) <;> rfl
  · simp only [hb, if_false]
    by_cases hd : c = '.'
    · simp only [hd, if_true]
      cases lookup_token current token <;> rfl
    · simp only [hd, if_false]

/-- Every iteration advances the scan position: what is left to scan afterwards is a
suffix of the text behind the character the iteration started on. -/
theorem navigate_step_advances (current : cJSON) (token : CString) (c : Char)
    (rest : CString) (cur : cJSON) (tok ptr : CString)
    (h : navigate_step current token c rest = some (cur, tok, ptr)) :
    List.IsSuffix ptr rest ∧ ptr.length < (c :: rest).length := by
  have hsuffix : List.IsSuffix ptr rest := by
    unfold navigate_step at h
    by_cases hb : c = '['
    · simp only [hb, if_true] at h
      cases hl : lookup_token current token with
      | none => simp [hl] at h
      | some cur1 =>
        cases hs : strchr rest ']' with
        | none => simp [hl, hs] at h
        | some q =>
          obtain ⟨digits, after⟩ := q
          simp only [hl, hs] at h
          cases hi : cJSON_GetArrayItem cur1
            (if atoi digits < 0 then cJSON_GetArraySize cur1 + atoi digits else atoi digits) with
          | none => simp [hi] at h
          | some item =>
            simp only [hi, Option.some.injEq, Prod.mk.injEq] at h
            have e := (strchr_eq_some hs).1
            have hsd : List.IsSuffix (skip_dot after) after := by
              cases after with
              | nil => exact List.suffix_refl _
              | cons a as =>
                by_cases ha : a = '.'
                · simp only [skip_dot, ha, if_true]
                  exact List.suffix_cons _ _
                · simp only [skip_dot, ha, if_false]
                  exact List.suffix_refl _
            rw [← h.2.2, e]
            exact List.IsSuffix.trans hsd
              (List.IsSuffix.trans (List.suffix_cons _ _) (List.suffix_append _ _))
    · simp only [hb, if_false] at h
      by_cases hd : c = '.'
      · simp only [hd, if_true] at h
        cases hl : lookup_token current token with
        | none => simp [hl] at h
        | some cur1 =>
          simp only [hl, Option.some.injEq, Prod.mk.injEq] at h
          exact h.2.2 ▸ List.suffix_refl rest
      · simp only [hd, if_false, Option.some.injEq, Prod.mk.injEq] at h
        exact h.2.2 ▸ List.suffix_refl rest
  refine ⟨hsuffix, ?_⟩
  have := List.IsSuffix.length_le hsuffix
  simp only [List.length_cons]
  omega

/-- The unbounded loop ends, with the result the bounded loop computes. -/
theorem navigate_run_loop (n : Nat) : ∀ (current : cJSON) (token ptr : CString),
    ptr.length ≤ n → navigate_run current token ptr (navigate_loop n current token ptr) := by
  induction n with
  | zero =>
    intro current token ptr hn
    have : ptr = [] := List.length_eq_zero.mp (Nat.le_zero.mp hn)
    subst this
    simp only [navigate_loop]
    exact navigate_run.finish current token
  | succ n ih =>
    intro current token ptr hn
    cases ptr with
    | nil =>
      simp only [navigate_loop]
      exact navigate_run.finish current token
    | cons c rest =>
      rw [navigate_loop_step]
      cases hs : navigate_step current token c rest with
      | none => exact navigate_run.miss current token c rest hs
      | some q =>
        obtain ⟨cur, tok, ptr⟩ := q
        have hlen := (navigate_step_advances current token c rest cur tok ptr hs).2
        simp only [List.length_cons] at hn hlen
        exact navigate_run.step current token c rest cur tok ptr _ hs
          (ih cur tok ptr (by omega))

/-- The loop is deterministic: a run has one result. -/
theorem navigate_run_unique (current : cJSON) (token ptr : CString) (r1 r2 : Option cJSON)
    (h1 : navigate_run current token ptr r1) (h2 : navigate_run current token ptr r2) :
    r1 = r2 := by
  induction h1 generalizing r2 with
  | finish current token =>
    cases h2
    rfl
  | miss current token c rest hs =>
    cases h2 with
    | miss _ _ _ _ _ => rfl
    | step _ _ _ _ cur tok ptr _ hs2 _ => rw [hs] at hs2; cases hs2
  | step current token c rest cur tok ptr result hs _ ih =>
    cases h2 with
    | miss _ _ _ _ hs2 => rw [hs] at hs2; cases hs2
    | step _ _ _ _ cur2 tok2 ptr2 _ hs2 hrun2 =>
      rw [hs] at hs2
      cases hs2
      exact ih r2 hrun2

/-- C20. Navigation is total: for every tree and every path string, of any characters and
any length, well-formed or not, the scanning loop of `navigate_path` terminates. Each
iteration strictly advances the scan position; the loop started on a root and a path ends
with exactly one result, the node or none that `navigate_path` returns, and no bound on
the iterations beyond the length of the path changes it; for a null tree or a null path
the tree is returned at once. Hence `nerd_json_has` is 0 or 1 on every input. -/
theorem navigation_total (t : Option cJSON) (p : Option CString) :
    (∀ current token c rest cur tok ptr,
        navigate_step current token c rest = some (cur, tok, ptr) →
        List.IsSuffix ptr rest ∧ ptr.length < (c :: rest).length)
    ∧ (∀ root path, navigate_run root [] path (navigate_path (some root) (some path)))
    ∧ (∀ root path result, navigate_run root [] path result →
        result = navigate_path (some root) (some path))
    ∧ (∀ root path n, path.length ≤ n →
        navigate_loop n root [] path = navigate_path (some root) (some path))
    ∧ (t = none ∨ p = none → navigate_path t p = t)
    ∧ (nerd_json_has t p = 0 ∨ nerd_json_has t p = 1) := by
  have hrun : ∀ root path, navigate_run root [] path (navigate_path (some root) (some path)) := by
    intro root path
    rw [navigate_path_some]
    exact navigate_run_loop _ root [] path (le_refl _)
  refine ⟨navigate_step_advances, hrun, ?_, ?_, ?_, ?_⟩
  · intro root path result h
    exact navigate_run_unique root [] path _ _ h (hrun root path)
  · intro root path n hn
    rw [navigate_path_some]
    exact navigate_loop_fuel n _ root [] path hn (le_refl _)
  · intro h
    rcases h with h | h
    · rw [h]
      exact navigate_path_none p
    · rw [h]
      cases t <;> rfl
  · unfold nerd_json_has
    cases navigate_path t p
    · exact Or.inl rfl
    · exact Or.inr rfl

/-! ## C21: `extract_text` -/

theorem starts_with_iff (l n : CString) : starts_with l n = true ↔ ∃ t, l = n ++ t := by
  induction n generalizing l with
  | nil => simp [starts_with]
  | cons x xs ih =>
    cases l with
    | nil => simp [starts_with]
    | cons c cs =>
      simp only [starts_with, Bool.and_eq_true, decide_eq_true_eq, ih, List.cons_append,
        List.cons.injEq]
      constructor
      · rintro ⟨h1, t, h2⟩
        exact ⟨t, h1, h2⟩
      · rintro ⟨t, h1, h2⟩
        exact ⟨h1, t, h2⟩

/-- The search finds nothing in a text in which the needle does not occur. -/
theorem strstr_absent (needle : CString) : ∀ hay : CString,
    (∀ a b, hay ≠ a ++ (needle ++ b)) → strstr hay needle = none := by
  intro hay
  induction hay with
  | nil =>
    intro h
    have hs : starts_with [] needle = false := by
      cases hb : starts_with [] needle with
      | false => rfl
      | true =>
        obtain ⟨t, ht⟩ := (starts_with_iff [] needle).mp hb
        exact absurd ht (h [] t)
    simp [strstr, hs]
  | cons c cs ih =>
    intro h
    have hs : starts_with (c :: cs) needle = false := by
      cases hb : starts_with (c :: cs) needle with
      | false => rfl
      | true =>
        obtain ⟨t, ht⟩ := (starts_with_iff (c :: cs) needle).mp hb
        exact absurd ht (h [] t)
    simp only [strstr, hs]
    apply ih
    intro a b e
    exact h (c :: a) b (by rw [e]; rfl)

/-- The marker does not begin inside a non-empty text in front of it, unless that text
holds the marker itself or ends with the first seven characters of it. -/
theorem marker_not_early (pre rest : CString) (hne : pre ≠ [])
    (hpre : ∀ a b, pre ≠ a ++ (text_marker ++ b))
    (hend : ∀ a, pre ≠ a ++ ['"', 't', 'e', 'x', 't', '"', ':']) :
    starts_with (pre ++ (text_marker ++ rest)) text_marker = false := by
  cases hb : starts_with (pre ++ (text_marker ++ rest)) text_marker with
  | false => rfl
  | true =>
    exfalso
    obtain ⟨t, ht⟩ := (starts_with_iff _ _).mp hb
    rcases List.append_eq_append_iff.mp ht with ⟨a1, h1, h2⟩ | ⟨c1, h1, _⟩
    · have hk : pre = text_marker.take pre.length := by
        have := congrArg (List.take pre.length) h1
        simpa using this.symm
      have ha : a1 = text_marker.drop pre.length := by
        have := congrArg (List.drop pre.length) h1
        simpa using this.symm
      have hlen : pre.length ≤ 8 := by
        have := congrArg List.length h1
        simp only [text_marker, List.length_cons, List.length_nil, List.length_append] at this
        omega
      generalize pre.length = k at hk ha hlen
      interval_cases k
      · exact hne (by simpa using hk)
      · rw [ha] at h2; simp [text_marker] at h2
      · rw [ha] at h2; simp [text_marker] at h2
      · rw [ha] at h2; simp [text_marker] at h2
      · rw [ha] at h2; simp [text_marker] at h2
      · rw [ha] at h2; simp [text_marker] at h2
      · rw [ha] at h2; simp [text_marker] at h2
      · exact hend [] (by rw [hk]; rfl)
      · exact hpre [] [] (by rw [hk]; rfl)
    · exact hpre [] c1 (by rw [h1]; rfl)

/-- The search finds the marker right behind a text that neither holds the marker nor ends
with the first seven characters of it. -/
theorem strstr_first (rest : CString) : ∀ pre : CString,
    (∀ a b, pre ≠ a ++ (text_marker ++ b)) →
    (∀ a, pre ≠ a ++ ['"', 't', 'e', 'x', 't', '"', ':']) →
    strstr (pre ++ (text_marker ++ rest)) text_marker = some (text_marker ++ rest) := by
  intro pre
  induction pre with
  | nil =>
    intro _ _
    have hs : starts_with ('"' :: ('t' :: 'e' :: 'x' :: 't' :: '"' :: ':' :: '"' :: rest))
        text_marker = true :=
      (starts_with_iff _ _).mpr ⟨rest, rfl⟩
    show strstr ('"' :: ('t' :: 'e' :: 'x' :: 't' :: '"' :: ':' :: '"' :: rest)) text_marker = _
    rw [strstr, if_pos hs]
    rfl
  | cons x p ih =>
    intro hpre hend
    have hs := marker_not_early (x :: p) rest (by simp) hpre hend
    simp only [List.cons_append] at hs ⊢
    rw [strstr, if_neg (by rw [hs]; decide)]
    apply ih
    · intro a b e
      exact hpre (x :: a) b (by rw [e]; rfl)
    · intro a e
      exact hend (x :: a) (by rw [e]; rfl)

theorem esc_cons (c : Char) (s : CString) : esc (c :: s) = esc_char c ++ esc s := by
  simp [esc]

/-- The scan for the end passes the escaped text and stops at the double quote behind it,
provided the text does not end with a backslash. -/
theorem find_text_end_esc (suffix : CString) : ∀ (s : CString) (prev : Char),
    (s = [] → prev ≠ '\\') → (∀ a, s ≠ a ++ ['\\']) →
    find_text_end prev (esc s ++ '"' :: suffix) = (esc s).length := by
  intro s
  induction s with
  | nil =>
    intro prev hprev _
    have hp := hprev rfl
    simp [esc, find_text_end, hp]
  | cons c s1 ih =>
    intro prev _ hs
    have hs1 : ∀ a, s1 ≠ a ++ ['\\'] := by
      intro a e
      exact hs (c :: a) (by rw [e]; rfl)
    rw [esc_cons]
    by_cases h1 : c = '\\'
    · have hne : s1 ≠ [] := by
        intro e
        exact hs [] (by rw [h1, e]; rfl)
      have hstep := ih '\\' (fun e => absurd e hne) hs1
      have hq : ¬ ('\\' = '"') := by decide
      simp only [esc_char, h1, if_true, List.cons_append, List.nil_append, find_text_end, hq,
        false_and, if_false, hstep, List.length_cons]
    · by_cases h2 : c = '"'
      · have hstep := ih '"' (fun _ => by decide) hs1
        have hq : ¬ ('\\' = '"') := by decide
        have hb : ¬ ('"' = '\\') := by decide
        simp only [esc_char, h2, hb, if_false, if_true, List.cons_append, List.nil_append,
          find_text_end, hq, false_and, ne_eq, not_true_eq_false, and_false, hstep,
          List.length_cons]
      · by_cases h3 : c = '\n'
        · have hstep := ih 'n' (fun _ => by decide) hs1
          have hq : ¬ ('\\' = '"') := by decide
          have hn : ¬ ('n' = '"') := by decide
          have hb1 : ¬ ('\n' = '\\') := by decide
          have hb2 : ¬ ('\n' = '"') := by decide
          simp only [esc_char, h3, hb1, hb2, if_false, if_true, List.cons_append,
            List.nil_append, find_text_end, hq, hn, false_and, hstep, List.length_cons]
        · by_cases h4 : c = '\t'
          · have hstep := ih 't' (fun _ => by decide) hs1
            have hq : ¬ ('\\' = '"') := by decide
            have hn : ¬ ('t' = '"') := by decide
            have hb1 : ¬ ('\t' = '\\') := by decide
            have hb2 : ¬ ('\t' = '"') := by decide
            have hb3 : ¬ ('\t' = '\n') := by decide
            simp only [esc_char, h4, hb1, hb2, hb3, if_false, if_true, List.cons_append,
              List.nil_append, find_text_end, hq, hn, false_and, hstep, List.length_cons]
          · have hstep := ih c (fun _ => h1) hs1
            simp only [esc_char, h1, h2, h3, h4, if_false, List.cons_append, List.nil_append,
              find_text_end, false_and, hstep, List.length_cons]

theorem unescape_text_plain (c : Char) (t : CString) (h : c ≠ '\\') :
    unescape_text (c :: t) = c :: unescape_text t := by
  cases t with
  | nil => rfl
  | cons n r => simp [unescape_text, h]

/-- The copy loop undoes the escaping, for every text. -/
theorem unescape_text_esc : ∀ s : CString, unescape_text (esc s) = s := by
  intro s
  induction s with
  | nil => rfl
  | cons c s1 ih =>
    rw [esc_cons]
    by_cases h1 : c = '\\'
    · have hn : ¬ ('\\' = 'n') := by decide
      have ht : ¬ ('\\' = 't') := by decide
      have hq : ¬ ('\\' = '"') := by decide
      simp only [esc_char, h1, if_true, List.cons_append, List.nil_append, unescape_text, hn,
        ht, hq, if_false, ih]
    · by_cases h2 : c = '"'
      · have hb : ¬ ('"' = '\\') := by decide
        have hn : ¬ ('"' = 'n') := by decide
        have ht : ¬ ('"' = 't') := by decide
        simp only [esc_char, h2, hb, if_false, if_true, List.cons_append, List.nil_append,
          unescape_text, hn, ht, ih]
      · by_cases h3 : c = '\n'
        · have hb1 : ¬ ('\n' = '\\') := by decide
          have hb2 : ¬ ('\n' = '"') := by decide
          simp only [esc_char, h3, hb1, hb2, if_false, if_true, List.cons_append,
            List.nil_append, unescape_text, ih]
        · by_cases h4 : c = '\t'
          · have hb1 : ¬ ('\t' = '\\') := by decide
            have hb2 : ¬ ('\t' = '"') := by decide
            have hb3 : ¬ ('\t' = '\n') := by decide
            have hn : ¬ ('t' = 'n') := by decide
            simp only [esc_char, h4, hb1, hb2, hb3, if_false, if_true, List.cons_append,
              List.nil_append, unescape_text, hn, ih]
          · simp only [esc_char, h1, h2, h3, h4, if_false, List.cons_append, List.nil_append]
            rw [unescape_text_plain c _ h1, ih]

/-- The search finds something in every text in which the needle occurs. -/
theorem strstr_occurs (needle b : CString) : ∀ a : CString,
    strstr (a ++ (needle ++ b)) needle ≠ none := by
  have hs : starts_with (needle ++ b) needle = true := (starts_with_iff _ _).mpr ⟨b, rfl⟩
  intro a
  induction a with
  | nil =>
    simp only [List.nil_append]
    cases hl : needle ++ b with
    | nil =>
      rw [hl] at hs
      simp [strstr, hs]
    | cons c cs =>
      rw [hl] at hs
      simp [strstr, hs]
  | cons x a1 ih =>
    simp only [List.cons_append]
    rw [strstr]
    split
    · simp
    · exact ih

/-- A text on which the search finds nothing does not hold the needle. -/
theorem strstr_none_absent (hay needle : CString) (h : strstr hay needle = none) :
    ∀ a b, hay ≠ a ++ (needle ++ b) := by
  intro a b e
  rw [e] at h
  exact strstr_occurs needle b a h

/-- C21 (as amended). `extract_text` undoes the escaping of a text string value: for every
text `s` that does not end with a backslash, where `esc(s)` replaces backslash, double
quote, newline and tab by their two-character sequences, for every text in front that
neither contains the marker nor ends with its first seven characters, and for every
suffix, `extract_text` of that text, the marker, `esc(s)`, a double quote and the suffix
returns exactly `s`, the empty `s` included; and `extract_text` returns none when the
input does not contain the marker. -/
theorem extract_text_unescapes (pre s suffix : CString)
    (hpre : ∀ a b, pre ≠ a ++ (text_marker ++ b))
    (hend : ∀ a, pre ≠ a ++ ['"', 't', 'e', 'x', 't', '"', ':'])
    (hs : ∀ a, s ≠ a ++ ['\\']) :
    extract_text (pre ++ (text_marker ++ (esc s ++ '"' :: suffix))) = some s
    ∧ (∀ json : CString, (∀ a b, json ≠ a ++ (text_marker ++ b)) → extract_text json = none) := by
  constructor
  · unfold extract_text
    rw [strstr_first _ pre hpre hend]
    have hdrop : (text_marker ++ (esc s ++ '"' :: suffix)).drop 8 = esc s ++ '"' :: suffix := rfl
    simp only [hdrop]
    rw [find_text_end_esc suffix s '"' (fun _ => by decide) hs, List.take_left,
      unescape_text_esc]
  · intro json h
    unfold extract_text
    rw [strstr_absent text_marker json h]

/-- Witness for C21 as amended: behind a text that does not hold the marker, the escaped
form of a value with a quoted word, a backslash inside and a newline at the end is read
back as that value. -/
theorem extract_text_unescapes_witness :
    extract_text ("id:1,".toList ++ (text_marker
        ++ (esc ['a', '\\', 'b', ' ', '"', 'c', '"', '\n'] ++ '"' :: ",end".toList)))
      = some ['a', '\\', 'b', ' ', '"', 'c', '"', '\n']
    ∧ esc ['a', '\\', 'b', ' ', '"', 'c', '"', '\n']
      = ['a', '\\', '\\', 'b', ' ', '\\', '"', 'c', '\\', '"', '\\', 'n'] :=
  ⟨(extract_text_unescapes "id:1,".toList ['a', '\\', 'b', ' ', '"', 'c', '"', '\n']
      ",end".toList
      (strstr_none_absent _ _ (by decide))
      (fun a e => by
        have h := congrArg List.getLast? e
        simp at h)
      (fun a e => by
        have h := congrArg List.getLast? e
        simp at h)).1,
   by decide⟩

/-- Counterexample to C21 as stated. First, a value that ends with a backslash: in the
text of an opening brace, the marker, the escaped form of the three characters `C`, colon,
backslash, a double quote and a closing brace, the brace in front does not hold the
marker, yet `extract_text` does not return the value: the closing double quote stands
behind a backslash, the scan passes it, and the result runs on through the quote and the
brace. Second, a text in front that does not hold the marker but ends with its first
seven characters: the search finds the marker one character before the marker meant, and
the result is the word between, not the value. -/
theorem extract_text_counterexample :
    (strstr ['{'] text_marker = none
      ∧ esc ['C', ':', '\\'] = ['C', ':', '\\', '\\']
      ∧ extract_text (['{'] ++ (text_marker ++ (esc ['C', ':', '\\'] ++ '"' :: ['}'])))
          = some ['C', ':', '\\', '"', '}']
      ∧ extract_text (['{'] ++ (text_marker ++ (esc ['C', ':', '\\'] ++ '"' :: ['}'])))
          ≠ some ['C', ':', '\\'])
    ∧ (strstr ['"', 't', 'e', 'x', 't', '"', ':'] text_marker = none
      ∧ extract_text (['"', 't', 'e', 'x', 't', '"', ':']
            ++ (text_marker ++ (esc ['h', 'i'] ++ '"' :: [])))
          = some ['t', 'e', 'x', 't']
      ∧ extract_text (['"', 't', 'e', 'x', 't', '"', ':']
            ++ (text_marker ++ (esc ['h', 'i'] ++ '"' :: [])))
          ≠ some ['h', 'i']) := by
  decide

/-! ## C22: `base64_encode` -/

/-- The table of the source is the alphabet of RFC 4648. -/
theorem base64_table_alphabet (v : Nat) (hv : v < 64) :
    base64_table.getD v 'A' = rfc4648_alphabet v := by
  interval_cases v <;> rfl

/-- No character of the alphabet is the padding character. -/
theorem rfc4648_alphabet_ne_pad (v : Nat) : rfc4648_alphabet v ≠ '=' := by
  by_cases hv : v < 64
  · interval_cases v <;> decide
  · have h1 : ¬ v < 26 := by omega
    have h2 : ¬ v < 52 := by omega
    have h3 : ¬ v < 62 := by omega
    have h4 : ¬ v = 62 := by omega
    simp only [rfc4648_alphabet, h1, h2, h3, h4, if_false]
    decide

/-- The four characters of a pass, by the arithmetic of the three octets. -/
theorem base64_quad_eq (a b c : Nat) (ha : a < 256) (hb : b < 256) (hc : c < 256) :
    base64_quad a b c
      = [rfc4648_alphabet (a / 4), rfc4648_alphabet (a % 4 * 16 + b / 16),
         rfc4648_alphabet (b % 16 * 4 + c / 64), rfc4648_alphabet (c % 64)] := by
  have hm : (0x3F : Nat) = 2 ^ 6 - 1 := by norm_num
  have e1 : ((((a <<< 16) + (b <<< 8) + c) % 4294967296) >>> 18) &&& 0x3F = a / 4 := by
    rw [hm, Nat.and_pow_two_sub_one_eq_mod]
    simp only [Nat.shiftLeft_eq, Nat.shiftRight_eq_div_pow]
    omega
  have e2 : ((((a <<< 16) + (b <<< 8) + c) % 4294967296) >>> 12) &&& 0x3F
      = a % 4 * 16 + b / 16 := by
    rw [hm, Nat.and_pow_two_sub_one_eq_mod]
    simp only [Nat.shiftLeft_eq, Nat.shiftRight_eq_div_pow]
    omega
  have e3 : ((((a <<< 16) + (b <<< 8) + c) % 4294967296) >>> 6) &&& 0x3F
      = b % 16 * 4 + c / 64 := by
    rw [hm, Nat.and_pow_two_sub_one_eq_mod]
    simp only [Nat.shiftLeft_eq, Nat.shiftRight_eq_div_pow]
    omega
  have e4 : (((a <<< 16) + (b <<< 8) + c) % 4294967296) &&& 0x3F = c % 64 := by
    rw [hm, Nat.and_pow_two_sub_one_eq_mod]
    simp only [Nat.shiftLeft_eq]
    omega
  unfold base64_quad
  simp only [e1, e2, e3, e4]
  rw [base64_table_alphabet _ (by omega), base64_table_alphabet _ (by omega),
    base64_table_alphabet _ (by omega), base64_table_alphabet _ (by omega)]

/-- The six-bit groups of RFC 4648 as numbers: the arithmetic of the octets they come
from. -/
theorem bits_value_octets (a b c : Nat) (ha : a < 256) (hb : b < 256) (hc : c < 256) :
    bits_value [a / 128 % 2, a / 64 % 2, a / 32 % 2, a / 16 % 2, a / 8 % 2, a / 4 % 2] = a / 4
    ∧ bits_value [a / 2 % 2, a % 2, b / 128 % 2, b / 64 % 2, b / 32 % 2, b / 16 % 2]
        = a % 4 * 16 + b / 16
    ∧ bits_value [b / 8 % 2, b / 4 % 2, b / 2 % 2, b % 2, c / 128 % 2, c / 64 % 2]
        = b % 16 * 4 + c / 64
    ∧ bits_value [c / 32 % 2, c / 16 % 2, c / 8 % 2, c / 4 % 2, c / 2 % 2, c % 2] = c % 64
    ∧ bits_value [a / 2 % 2, a % 2, 0, 0, 0, 0] = a % 4 * 16
    ∧ bits_value [b / 8 % 2, b / 4 % 2, b / 2 % 2, b % 2, 0, 0] = b % 16 * 4 := by
  simp only [bits_value, List.foldl]
  refine ⟨?_, ?_, ?_, ?_, ?_, ?_⟩ <;> omega

/-- RFC 4648 on a full quantum of three octets in front of further bits. -/
theorem rfc4648_sextets_three (a b c : Nat) (bits : List Nat)
    (ha : a < 256) (hb : b < 256) (hc : c < 256) :
    rfc4648_sextets (octet_bits a ++ (octet_bits b ++ (octet_bits c ++ bits)))
      = a / 4 :: (a % 4 * 16 + b / 16) :: (b % 16 * 4 + c / 64) :: (c % 64)
          :: rfc4648_sextets bits := by
  obtain ⟨h1, h2, h3, h4, _, _⟩ := bits_value_octets a b c ha hb hc
  simp only [octet_bits, List.cons_append, List.nil_append, rfc4648_sextets, h1, h2, h3, h4]
  rfl

/-- RFC 4648 on a final quantum of one octet. -/
theorem rfc4648_sextets_one (a : Nat) (ha : a < 256) :
    rfc4648_sextets (octet_bits a) = [a / 4, a % 4 * 16] := by
  obtain ⟨h1, _, _, _, h5, _⟩ := bits_value_octets a 0 0 ha (by omega) (by omega)
  simp only [octet_bits, rfc4648_sextets, h1, h5]

/-- RFC 4648 on a final quantum of two octets. -/
theorem rfc4648_sextets_two (a b : Nat) (ha : a < 256) (hb : b < 256) :
    rfc4648_sextets (octet_bits a ++ octet_bits b)
      = [a / 4, a % 4 * 16 + b / 16, b % 16 * 4] := by
  obtain ⟨h1, h2, _, _, _, h6⟩ := bits_value_octets a b 0 ha hb (by omega)
  simp only [octet_bits, List.cons_append, List.nil_append, rfc4648_sextets, h1, h2, h6]

theorem rfc4648_padding_three (n : Nat) : rfc4648_padding (n + 3) = rfc4648_padding n := by
  simp only [rfc4648_padding, Nat.add_mod_right]

/-- RFC 4648 encodes a first full quantum by itself. -/
theorem rfc4648_base64_three (a b c : Nat) (rest : List Nat)
    (ha : a < 256) (hb : b < 256) (hc : c < 256) :
    rfc4648_base64 (a :: b :: c :: rest)
      = [rfc4648_alphabet (a / 4), rfc4648_alphabet (a % 4 * 16 + b / 16),
         rfc4648_alphabet (b % 16 * 4 + c / 64), rfc4648_alphabet (c % 64)]
        ++ rfc4648_base64 rest := by
  unfold rfc4648_base64
  have hl : (a :: b :: c :: rest).length = rest.length + 3 := rfl
  rw [hl, rfc4648_padding_three]
  simp only [List.flatMap_cons]
  rw [rfc4648_sextets_three a b c _ ha hb hc]
  simp only [List.map_cons, List.cons_append, List.nil_append]

theorem base64_quad_length (a b c : Nat) : (base64_quad a b c).length = 4 := rfl

/-- The loop writes four characters for every three octets begun. -/
theorem base64_loop_length : ∀ x : List Nat,
    (base64_loop x).length = 4 * ((x.length + 2) / 3)
  | [] => rfl
  | [a] => by simp [base64_loop, base64_quad_length]
  | [a, b] => by simp [base64_loop, base64_quad_length]
  | a :: b :: c :: rest => by
    have ih := base64_loop_length rest
    simp only [base64_loop, List.length_append, base64_quad_length, ih, List.length_cons]
    omega

/-- The source encodes a first full quantum by itself: the padding only touches the end. -/
theorem base64_encode_three (a b c : Nat) (rest : List Nat) :
    base64_encode (a :: b :: c :: rest) = base64_quad a b c ++ base64_encode rest := by
  have hlen := base64_loop_length rest
  have hq := base64_quad_length a b c
  unfold base64_encode
  simp only [base64_loop, List.length_cons]
  have hmod : (rest.length + 1 + 1 + 1) % 3 = rest.length % 3 := by omega
  rw [hmod]
  by_cases h1 : rest.length % 3 = 1
  · rw [if_pos h1, if_pos h1]
    rw [List.set_append_right _ _ (by rw [hq]; omega),
      List.set_append_right _ _ (by rw [hq]; omega), hq]
    have e1 : 4 * ((rest.length + 1 + 1 + 1 + 2) / 3) - 1 - 4
        = 4 * ((rest.length + 2) / 3) - 1 := by omega
    have e2 : 4 * ((rest.length + 1 + 1 + 1 + 2) / 3) - 2 - 4
        = 4 * ((rest.length + 2) / 3) - 2 := by omega
    rw [e1, e2]
  · by_cases h2 : rest.length % 3 = 2
    · rw [if_neg h1, if_pos h2, if_neg h1, if_pos h2]
      rw [List.set_append_right _ _ (by rw [hq]; omega), hq]
      have e1 : 4 * ((rest.length + 1 + 1 + 1 + 2) / 3) - 1 - 4
          = 4 * ((rest.length + 2) / 3) - 1 := by omega
      rw [e1]
    · rw [if_neg h1, if_neg h2, if_neg h1, if_neg h2]

/-- The output of the source is the RFC 4648 encoding. -/
theorem base64_encode_rfc4648 : ∀ x : List Nat, (∀ b ∈ x, b < 256) →
    base64_encode x = rfc4648_base64 x
  | [], _ => rfl
  | [a], h => by
    have ha : a < 256 := h a (by simp)
    have hq := base64_quad_eq a 0 0 ha (by omega) (by omega)
    have hs := rfc4648_sextets_one a ha
    have hb : octet_bits a ++ [] = octet_bits a := List.append_nil _
    simp only [base64_encode, base64_loop, hq, rfc4648_base64, List.flatMap_cons,
      List.flatMap_nil, hb, hs, rfc4648_padding, List.length_singleton]
    simp
  | [a, b], h => by
    have ha : a < 256 := h a (by simp)
    have hb : b < 256 := h b (by simp)
    have hq := base64_quad_eq a b 0 ha hb (by omega)
    have hs := rfc4648_sextets_two a b ha hb
    have hnil : octet_bits b ++ [] = octet_bits b := List.append_nil _
    simp only [base64_encode, base64_loop, hq, rfc4648_base64, List.flatMap_cons,
      List.flatMap_nil, hnil, hs, rfc4648_padding, List.length_cons, List.length_nil]
    simp
  | a :: b :: c :: rest, h => by
    have ha : a < 256 := h a (by simp)
    have hb : b < 256 := h b (by simp)
    have hc : c < 256 := h c (by simp)
    have ih := base64_encode_rfc4648 rest (fun x hx => h x (by simp [hx]))
    rw [base64_encode_three, rfc4648_base64_three a b c rest ha hb hc,
      base64_quad_eq a b c ha hb hc, ih]

/-- C22. `base64_encode` is standard Base64: for every string of octets `x` of length
`n`, `base64_encode(x)` equals the RFC 4648 Base64 encoding of `x` over the alphabet of
upper-case letters, lower-case letters, digits, plus and slash, with `=` padding; its
length is 4 times the ceiling of `n / 3`; it ends with two `=` when `n mod 3 = 1`, with one
`=` when `n mod 3 = 2`, in both cases with no `=` before them, and holds no `=` when
`n mod 3 = 0`; the empty input gives the empty output. -/
theorem base64_encode_standard (x : List Nat) (hx : ∀ b ∈ x, b < 256) :
    base64_encode x = rfc4648_base64 x
    ∧ ((base64_encode x).length = 4 * ((x.length + 2) / 3)
      ∧ x.length ≤ 3 * ((x.length + 2) / 3) ∧ 3 * ((x.length + 2) / 3) < x.length + 3)
    ∧ (x.length % 3 = 1 → ∃ pre, base64_encode x = pre ++ ['=', '='] ∧ '=' ∉ pre)
    ∧ (x.length % 3 = 2 → ∃ pre, base64_encode x = pre ++ ['='] ∧ '=' ∉ pre)
    ∧ (x.length % 3 = 0 → '=' ∉ base64_encode x)
    ∧ base64_encode [] = [] := by
  have heq := base64_encode_rfc4648 x hx
  have hnopad : '=' ∉ (rfc4648_sextets (x.flatMap octet_bits)).map rfc4648_alphabet := by
    intro hmem
    obtain ⟨v, _, hv⟩ := List.mem_map.mp hmem
    exact rfc4648_alphabet_ne_pad v hv
  refine ⟨heq, ⟨?_, by omega, by omega⟩, ?_, ?_, ?_, rfl⟩
  · unfold base64_encode
    simp only []
    by_cases h1 : x.length % 3 = 1
    · rw [if_pos h1]
      simp only [List.length_set, base64_loop_length]
    · by_cases h2 : x.length % 3 = 2
      · rw [if_neg h1, if_pos h2]
        simp only [List.length_set, base64_loop_length]
      · rw [if_neg h1, if_neg h2]
        exact base64_loop_length x
  · intro h
    refine ⟨(rfc4648_sextets (x.flatMap octet_bits)).map rfc4648_alphabet, ?_, hnopad⟩
    rw [heq]
    simp only [rfc4648_base64, rfc4648_padding, h, if_true]
  · intro h
    have h1 : ¬ x.length % 3 = 1 := by omega
    refine ⟨(rfc4648_sextets (x.flatMap octet_bits)).map rfc4648_alphabet, ?_, hnopad⟩
    rw [heq]
    unfold rfc4648_base64 rfc4648_padding
    rw [if_neg h1, if_pos h]
  · intro h
    have h1 : ¬ x.length % 3 = 1 := by omega
    have h2 : ¬ x.length % 3 = 2 := by omega
    rw [heq]
    simp only [rfc4648_base64, rfc4648_padding, h1, h2, if_false, List.append_nil]
    exact hnopad

/-- Witness for C22: the test vectors of RFC 4648 for the octets of the words f, fo, foo
and fooba, and three octets with the top bit set. -/
theorem base64_encode_standard_witness :
    base64_encode [102, 111, 111, 98, 97] = rfc4648_base64 [102, 111, 111, 98, 97]
    ∧ base64_encode [102, 111, 111, 98, 97] = "Zm9vYmE=".toList
    ∧ base64_encode [102] = "Zg==".toList
    ∧ base64_encode [102, 111] = "Zm8=".toList
    ∧ base64_encode [102, 111, 111] = "Zm9v".toList
    ∧ base64_encode [255, 254, 253] = "//79".toList
    ∧ base64_encode [] = [] :=
  ⟨(base64_encode_standard [102, 111, 111, 98, 97] (by decide)).1,
   by decide, by decide, by decide, by decide, by decide, by decide⟩

end NerdJson
